import Mathlib

/-!
# Verification of the Klondike solitaire rules engine

This file is a shallow embedding, in Lean 4, of the rules/state engine of a
TypeScript Klondike solitaire implementation, together with theorems settling a
list of claims about it.

Modelling decisions (the embedding mirrors the TypeScript source):

* JavaScript objects live on a heap.  A `Card` object is identified by a
  reference `Ref` (its allocation index); piles are lists of references; the
  heap is a list of `Card` records.  Array copies such as `[...pile]` copy the
  reference list but share the card objects, exactly as in JavaScript; this
  matters because `revealHiddenCards` mutates card objects in place, and those
  mutations are visible through the shallow history snapshots.
* In-place mutation is modelled by explicit state passing: every mutating
  method takes the engine state and returns the updated state.
* JavaScript numbers that only ever hold integers (`value`, `score`, `moves`,
  `position`) are modelled as `Int`.
* `Math.random`-driven shuffling is modelled by passing the shuffled deck (or
  shuffled reference order) explicitly as a parameter.
* Array indexing `a[i]` is modelled totally with `List.getD i default`.  An
  out-of-range `move.targetIndex` would make the TypeScript code throw a
  `TypeError` (indexing into `undefined`); theorems that quantify over moves
  therefore carry the hypothesis that a present `targetIndex` is in range.
-/

set_option linter.unnecessarySeqFocus false

namespace Klondike

/-- The four suits, `'♠' | '♥' | '♦' | '♣'` in the source. -/
inductive Suit where
  | spades | hearts | diamonds | clubs
deriving DecidableEq, Repr

/-- The thirteen ranks, `'A' | '2' | ... | '10' | 'J' | 'Q' | 'K'`. -/
inductive Rank where
  | rA | r2 | r3 | r4 | r5 | r6 | r7 | r8 | r9 | r10 | rJ | rQ | rK
deriving DecidableEq, Repr

/-- The suit character used inside card id strings. -/
def suitStr : Suit → String
  | .spades => "♠"
  | .hearts => "♥"
  | .diamonds => "♦"
  | .clubs => "♣"

/-- The rank token used inside card id strings. -/
def rankStr : Rank → String
  | .rA => "A"
  | .r2 => "2"
  | .r3 => "3"
  | .r4 => "4"
  | .r5 => "5"
  | .r6 => "6"
  | .r7 => "7"
  | .r8 => "8"
  | .r9 => "9"
  | .r10 => "10"
  | .rJ => "J"
  | .rQ => "Q"
  | .rK => "K"

/-- Numeric card value: `A ↦ 1`, `J ↦ 11`, `Q ↦ 12`, `K ↦ 13`, digits as is. -/
def rankValue : Rank → Int
  | .rA => 1
  | .r2 => 2
  | .r3 => 3
  | .r4 => 4
  | .r5 => 5
  | .r6 => 6
  | .r7 => 7
  | .r8 => 8
  | .r9 => 9
  | .r10 => 10
  | .rJ => 11
  | .rQ => 12
  | .rK => 13

/-- The `Card` interface from `types/game.ts`. `location` is one of the
strings `'stock' | 'waste' | 'foundation' | 'tableau'`. -/
structure Card where
  id : String
  suit : Suit
  rank : Rank
  value : Int
  faceUp : Bool
  location : String
  position : Int
deriving DecidableEq, Repr

/-- A reference to a card object: its allocation index in the heap. -/
abbrev Ref := Nat

/-- The JavaScript object heap restricted to card objects. -/
abbrev Heap := List Card

/-- Placeholder used to totalise heap lookups; well-formed states never
dereference out of range. -/
def defaultCard : Card :=
  { id := "", suit := .spades, rank := .rA, value := 0, faceUp := false,
    location := "", position := 0 }

/-- Dereference a card object. -/
def hGet (h : Heap) (r : Ref) : Card :=
  h.getD r defaultCard

/-- The foundation record `{ '♠': [], '♥': [], '♦': [], '♣': [] }`.  The four
keys are always created in this insertion order, which fixes the
`Object.values`/`Object.entries` iteration order. -/
structure Foundations where
  spades : List Ref
  hearts : List Ref
  diamonds : List Ref
  clubs : List Ref
deriving DecidableEq, Repr

/-- `foundations[suit]`. -/
def Foundations.get (f : Foundations) : Suit → List Ref
  | .spades => f.spades
  | .hearts => f.hearts
  | .diamonds => f.diamonds
  | .clubs => f.clubs

/-- Functional update of one foundation pile. -/
def Foundations.setPile (f : Foundations) : Suit → List Ref → Foundations
  | .spades, l => { f with spades := l }
  | .hearts, l => { f with hearts := l }
  | .diamonds, l => { f with diamonds := l }
  | .clubs, l => { f with clubs := l }

/-- `Object.values(foundations)`, in insertion order. -/
def Foundations.values (f : Foundations) : List (List Ref) :=
  [f.spades, f.hearts, f.diamonds, f.clubs]

/-- The `gameStats` sub-record of `GameState`. -/
structure GameStats where
  time : Int
  moves : Int
  score : Int
deriving DecidableEq, Repr

/-- One entry of `gameState.gameHistory`: the shallow snapshot pushed by
`makeMove` (`[...stock]`, `[...waste]`, pile-wise copies of `foundations` and
`tableau`, `{...gameStats}`).  The card objects themselves are shared with the
live state. -/
structure Snapshot where
  stock : List Ref
  waste : List Ref
  foundations : Foundations
  tableau : List (List Ref)
  gameStats : GameStats
deriving DecidableEq, Repr

/-- The engine-relevant fields of `GameState`, together with the card heap.
Fields of the source `GameState` that no engine operation ever reads or
writes (`time`, `isWon`, `drawMode`, `settings`) are omitted; they are
trivially preserved by every operation. -/
structure Engine where
  heap : Heap
  stock : List Ref
  waste : List Ref
  foundations : Foundations
  tableau : List (List Ref)
  selectedCard : Option Ref
  moves : Int
  score : Int
  canUndo : Bool
  gameStats : GameStats
  gameHistory : List Snapshot
deriving DecidableEq, Repr

/-- `MoveResult` from `gameEngine.ts`. -/
structure MoveResult where
  success : Bool
  newState : Engine
  error : Option String
deriving DecidableEq, Repr

/-- The closed set of `Move.type` string tags. -/
inductive MoveType where
  | stock | waste | foundation | tableau | wasteToTableau
deriving DecidableEq, Repr

/-- The `Move` interface (the fields the engine reads or produces;
`fromLocation`/`toLocation`/`fromPosition`/`toPosition` are never read). -/
structure Move where
  type : MoveType
  cardId : String
  sourceType : Option String := none
  sourceIndex : Option Nat := none
  targetIndex : Option Nat := none
deriving DecidableEq, Repr

/-- Is the card red (`'♥'` or `'♦'`)? -/
def isRed (c : Card) : Bool :=
  decide (c.suit = .hearts) || decide (c.suit = .diamonds)

/-- `GameEngine.canMoveToTableau`: an empty pile accepts only a King; a
non-empty pile requires a face-up top card of opposite colour and value one
greater than the moved card. -/
def canMoveToTableau (h : Heap) (card : Card) (pile : List Ref) : Bool :=
  match pile.getLast? with
  | none => decide (card.rank = .rK)
  | some r =>
    let topCard := hGet h r
    if topCard.faceUp then
      decide (card.value = topCard.value - 1) && (isRed card != isRed topCard)
    else
      false

/-- All card references of a board, in the order `GameEngine.findCard`
builds its `allCards` array: `stock`, `waste`, flattened `tableau`, flattened
`Object.values(foundations)`. -/
def boardRefs (s : Engine) : List Ref :=
  s.stock ++ s.waste ++ s.tableau.flatten ++ s.foundations.values.flatten

/-- The id strings of all cards of a board, in `boardRefs` order. -/
def boardIds (s : Engine) : List String :=
  (boardRefs s).map fun r => (hGet s.heap r).id

/-- `GameEngine.findCard`: linear search over all piles for the first card
object whose `id` matches. -/
def findCard (s : Engine) (cardId : String) : Option Ref :=
  (boardRefs s).find? fun r => decide ((hGet s.heap r).id = cardId)

/-- `pile.findIndex(c => c.id === cid)` followed by `splice(i, 1)`: remove the
first card with the given id, or `none` when the pile has no such card. -/
def removeFirstById (h : Heap) (cid : String) : List Ref → Option (List Ref)
  | [] => none
  | r :: rs =>
    if (hGet h r).id = cid then some rs
    else (removeFirstById h cid rs).map (r :: ·)

/-- Remove the first matching card from the first pile (in pile order) that
contains it. -/
def removeFromPiles (h : Heap) (cid : String) : List (List Ref) → Option (List (List Ref))
  | [] => none
  | p :: ps =>
    match removeFirstById h cid p with
    | some p' => some (p' :: ps)
    | none => (removeFromPiles h cid ps).map (p :: ·)

/-- `GameEngine.removeCardFromSource`: try `stock`, then `waste`, then each
tableau pile, then each foundation pile (in `Object.values` order); remove the
first card whose id matches and stop.  If the card is nowhere, the state is
returned unchanged (the source method just falls through). -/
def removeCardFromSource (s : Engine) (card : Card) : Engine :=
  match removeFirstById s.heap card.id s.stock with
  | some st => { s with stock := st }
  | none =>
    match removeFirstById s.heap card.id s.waste with
    | some w => { s with waste := w }
    | none =>
      match removeFromPiles s.heap card.id s.tableau with
      | some tab => { s with tableau := tab }
      | none =>
        match removeFirstById s.heap card.id s.foundations.spades with
        | some l => { s with foundations := { s.foundations with spades := l } }
        | none =>
          match removeFirstById s.heap card.id s.foundations.hearts with
          | some l => { s with foundations := { s.foundations with hearts := l } }
          | none =>
            match removeFirstById s.heap card.id s.foundations.diamonds with
            | some l => { s with foundations := { s.foundations with diamonds := l } }
            | none =>
              match removeFirstById s.heap card.id s.foundations.clubs with
              | some l => { s with foundations := { s.foundations with clubs := l } }
              | none => s

/-- `pile.slice(pile.findIndex(c => c.id === cid))` when the index exists. -/
def dropUntilId (h : Heap) (cid : String) : List Ref → Option (List Ref)
  | [] => none
  | r :: rs =>
    if (hGet h r).id = cid then some (r :: rs)
    else dropUntilId h cid rs

/-- Search the tableau piles in order for the card; used by
`getCardsToMove`. -/
def sliceFromPiles (h : Heap) (cid : String) : List (List Ref) → Option (List Ref)
  | [] => none
  | p :: ps =>
    match dropUntilId h cid p with
    | some l => some l
    | none => sliceFromPiles h cid ps

/-- `GameEngine.getCardsToMove`: the suffix of the containing tableau pile
starting at the card, or `[card]` when no tableau pile contains it. -/
def getCardsToMove (s : Engine) (r : Ref) : List Ref :=
  match sliceFromPiles s.heap (hGet s.heap r).id s.tableau with
  | some l => l
  | none => [r]

/-- One iteration of the `revealHiddenCards` loop over a tableau pile:
if the pile has a face-down top card, flip it in place and credit +5. -/
def revealStep (acc : Heap × Int) (pile : List Ref) : Heap × Int :=
  match pile.getLast? with
  | none => acc
  | some r =>
    let topCard := hGet acc.1 r
    if topCard.faceUp then acc
    else (acc.1.set r { topCard with faceUp := true }, acc.2 + 5)

/-- `GameEngine.revealHiddenCards`: flip the face-down top card of every
tableau pile face-up, crediting +5 per flip.  The flips mutate the shared card
objects (the heap), so they are visible through history snapshots. -/
def revealHiddenCards (s : Engine) : Engine :=
  let acc := s.tableau.foldl revealStep (s.heap, s.score)
  { s with heap := acc.1, score := acc.2 }

/-- The removal loop of `moveToTableau`:
`cardsToMove.forEach(c => this.removeCardFromSource(gameState, c))`. -/
def removeAll (l : List Ref) (s : Engine) : Engine :=
  l.foldl (fun st c => removeCardFromSource st (hGet st.heap c)) s

/-- `GameEngine.moveToFoundation`. -/
def moveToFoundation (s : Engine) (move : Move) : MoveResult :=
  match findCard s move.cardId with
  | none => ⟨false, s, some "Card not found"⟩
  | some r =>
    let card := hGet s.heap r
    let foundation := s.foundations.get card.suit
    if foundation = [] ∧ card.rank ≠ .rA then
      ⟨false, s, some "Only Ace can be placed on empty foundation"⟩
    else if foundation ≠ [] ∧ card.value ≠ (hGet s.heap (foundation.getLastD 0)).value + 1 then
      ⟨false, s, some "Card must be next in sequence"⟩
    else
      let s1 := removeCardFromSource s card
      let s2 := { s1 with
        foundations := s1.foundations.setPile card.suit (s1.foundations.get card.suit ++ [r]),
        moves := s1.moves + 1,
        score := s1.score + 10 }
      ⟨true, revealHiddenCards s2, none⟩

/-- `GameEngine.moveToTableau`. -/
def moveToTableau (s : Engine) (move : Move) : MoveResult :=
  match findCard s move.cardId, move.targetIndex with
  | none, _ => ⟨false, s, some "Invalid move parameters"⟩
  | some _, none => ⟨false, s, some "Invalid move parameters"⟩
  | some r, some ti =>
    let card := hGet s.heap r
    let targetPile := s.tableau.getD ti []
    if canMoveToTableau s.heap card targetPile then
      let cardsToMove := getCardsToMove s r
      let s1 := removeAll cardsToMove s
      let s2 := { s1 with
        tableau := s1.tableau.set ti (s1.tableau.getD ti [] ++ cardsToMove),
        moves := s1.moves + 1,
        score := s1.score + (cardsToMove.length : Int) }
      ⟨true, revealHiddenCards s2, none⟩
    else
      ⟨false, s, some "Invalid tableau move"⟩

/-- `GameEngine.moveWasteToTableau`.  Note: unlike the other two move
executors, this one does not call `revealHiddenCards`. -/
def moveWasteToTableau (s : Engine) (move : Move) : MoveResult :=
  match s.waste.getLast?, move.targetIndex with
  | none, _ => ⟨false, s, some "No waste card or invalid target"⟩
  | some _, none => ⟨false, s, some "No waste card or invalid target"⟩
  | some r, some ti =>
    if canMoveToTableau s.heap (hGet s.heap r) (s.tableau.getD ti []) then
      ⟨true, { s with
        waste := s.waste.dropLast,
        tableau := s.tableau.set ti (s.tableau.getD ti [] ++ [r]),
        moves := s.moves + 1,
        score := s.score + 5 }, none⟩
    else
      ⟨false, s, some "Cannot move waste card to tableau"⟩

/-- `GameEngine.executeMove`: dispatch on `move.type`; `'stock'` and
`'waste'` moves fall through to the default branch. -/
def executeMove (s : Engine) (move : Move) : MoveResult :=
  match move.type with
  | .foundation => moveToFoundation s move
  | .tableau => moveToTableau s move
  | .wasteToTableau => moveWasteToTableau s move
  | _ => ⟨false, s, some "Invalid move type"⟩

/-- The shallow pre-move snapshot `makeMove` pushes onto `gameHistory`. -/
def mkSnapshot (s : Engine) : Snapshot :=
  ⟨s.stock, s.waste, s.foundations, s.tableau, s.gameStats⟩

/-- `GameEngine.makeMove`: push a snapshot of the current state onto
`gameHistory` (before any validation), then execute the move; on success set
`canUndo`. -/
def makeMove (s : Engine) (move : Move) : MoveResult :=
  let s1 := { s with gameHistory := s.gameHistory ++ [mkSnapshot s] }
  let result := executeMove s1 move
  if result.success then
    { result with newState := { result.newState with canUndo := true } }
  else
    result

/-- `GameEngine.isValidMove` returns the `success` flag of the corresponding
move executor.  In the source this *calls the mutating executor on the live
board*; the state the caller's board is left in is `isValidMoveState`. -/
def isValidMove (s : Engine) (move : Move) : Bool :=
  match move.type with
  | .foundation => (moveToFoundation s move).success
  | .tableau => (moveToTableau s move).success
  | .wasteToTableau => (moveWasteToTableau s move).success
  | _ => false

/-- The state the board passed to `GameEngine.isValidMove` is left in after
the call (the executors mutate `gameState` in place). -/
def isValidMoveState (s : Engine) (move : Move) : Engine :=
  match move.type with
  | .foundation => (moveToFoundation s move).newState
  | .tableau => (moveToTableau s move).newState
  | .wasteToTableau => (moveWasteToTableau s move).newState
  | _ => s

/-- `GameEngine.checkWinCondition`:
`Object.values(foundations).every(f => f.length === 13)`. -/
def checkWinCondition (s : Engine) : Bool :=
  s.foundations.values.all fun foundation => decide (foundation.length = 13)

/-- `GameEngine.undo`: pop the most recent snapshot and rebuild the state
from it.  The spread `{...gameState, ...}` keeps the *post-move* top-level
`moves` and `score`; only the pile arrays and `gameStats` come from the
snapshot, and the card heap is untouched. -/
def undo (s : Engine) : MoveResult :=
  match s.gameHistory.getLast? with
  | none => ⟨false, s, some "No moves to undo"⟩
  | some previousState =>
    let rest := s.gameHistory.dropLast
    ⟨true, { s with
      stock := previousState.stock,
      waste := previousState.waste,
      foundations := previousState.foundations,
      tableau := previousState.tableau,
      gameHistory := rest,
      gameStats := previousState.gameStats,
      selectedCard := none,
      canUndo := !rest.isEmpty }, none⟩

/-- `GameEngine.getAllPossibleMoves`, first block: a foundation move for each
tableau pile whose face-up top card fits its foundation. -/
def foundationMovesAux (s : Engine) (i : Nat) : List (List Ref) → List Move
  | [] => []
  | pile :: ps =>
    (match pile.getLast? with
     | none => []
     | some r =>
       let topCard := hGet s.heap r
       if topCard.faceUp then
         let foundation := s.foundations.get topCard.suit
         if (foundation = [] ∧ topCard.rank = .rA) ∨
            (foundation ≠ [] ∧
              topCard.value = (hGet s.heap (foundation.getLastD 0)).value + 1) then
           [{ type := .foundation, cardId := topCard.id,
              sourceType := some "tableau", sourceIndex := some i }]
         else []
       else []) ++ foundationMovesAux s (i + 1) ps

/-- Inner loop of the tableau→tableau block: all target piles accepting the
given source top card. -/
def tableauTargetsAux (s : Engine) (sourceIndex : Nat) (topCard : Card) (ti : Nat) :
    List (List Ref) → List Move
  | [] => []
  | targetPile :: tps =>
    (if sourceIndex ≠ ti ∧ canMoveToTableau s.heap topCard targetPile then
       [{ type := .tableau, cardId := topCard.id, sourceType := some "tableau",
          sourceIndex := some sourceIndex, targetIndex := some ti }]
     else []) ++ tableauTargetsAux s sourceIndex topCard (ti + 1) tps

/-- `getAllPossibleMoves`, second block: tableau→tableau moves of face-up top
cards. -/
def tableauMovesAux (s : Engine) (si : Nat) : List (List Ref) → List Move
  | [] => []
  | sourcePile :: ps =>
    (match sourcePile.getLast? with
     | none => []
     | some r =>
       let topCard := hGet s.heap r
       if topCard.faceUp then tableauTargetsAux s si topCard 0 s.tableau
       else []) ++ tableauMovesAux s (si + 1) ps

/-- Inner loop of the waste block: all target piles accepting the waste top
card. -/
def wasteTargetsAux (s : Engine) (wasteCard : Card) (ti : Nat) :
    List (List Ref) → List Move
  | [] => []
  | targetPile :: tps =>
    (if canMoveToTableau s.heap wasteCard targetPile then
       [{ type := .wasteToTableau, cardId := wasteCard.id,
          sourceType := some "waste", targetIndex := some ti }]
     else []) ++ wasteTargetsAux s wasteCard (ti + 1) tps

/-- `GameEngine.getAllPossibleMoves`: tableau→foundation moves, then
tableau→tableau moves, then waste→tableau moves. -/
def getAllPossibleMoves (s : Engine) : List Move :=
  foundationMovesAux s 0 s.tableau ++
  tableauMovesAux s 0 s.tableau ++
  (match s.waste.getLast? with
   | none => []
   | some r => wasteTargetsAux s (hGet s.heap r) 0 s.tableau)

/-- The suit iteration order of both deck factories. -/
def allSuits : List Suit := [.spades, .hearts, .diamonds, .clubs]

/-- The rank iteration order of both deck factories. -/
def allRanks : List Rank :=
  [.rA, .r2, .r3, .r4, .r5, .r6, .r7, .r8, .r9, .r10, .rJ, .rQ, .rK]

/-- Module-level `createDeck` (in `solitaire.ts`): ids are
`` `${suit}-${rank}` `` and `position` counts `id - 1`, i.e. the running
index. -/
def createDeck : List Card :=
  (allSuits.flatMap fun su => allRanks.map fun rk => (su, rk)).enum.map fun x =>
    { id := suitStr x.2.1 ++ "-" ++ rankStr x.2.2, suit := x.2.1, rank := x.2.2,
      value := rankValue x.2.2, faceUp := false, location := "stock",
      position := (x.1 : Int) }

/-- `GameEngine.createDeck`: ids are `` `${rank}-${suit}` `` and `position`
is `deck.length` at push time, i.e. the running index. -/
def engineCreateDeck : List Card :=
  (allSuits.flatMap fun su => allRanks.map fun rk => (su, rk)).enum.map fun x =>
    { id := rankStr x.2.2 ++ "-" ++ suitStr x.2.1, suit := x.2.1, rank := x.2.2,
      value := rankValue x.2.2, faceUp := false, location := "stock",
      position := (x.1 : Int) }

/-- The `(col, row)` iteration order of the two nested deal loops
(`for col 0..6 { for row col..6 }`). -/
def dealPairs : List (Nat × Nat) :=
  (List.range 7).flatMap fun col => (List.range' col (7 - col)).map fun row => (col, row)

/-- The tableau reference layout produced by `dealCards`: the `k`-th card
copy allocated (running `cardIndex`) is pushed onto column `row`.  The layout
is independent of the deck contents. -/
def dealTabRefs : List (List Ref) :=
  dealPairs.enum.foldl (fun tab x => tab.set x.2.2 (tab.getD x.2.2 [] ++ [x.1]))
    (List.replicate 7 [])

/-- The card objects allocated by the tableau loop of `dealCards`:
`{...deck[cardIndex]}` with `faceUp = row === col`. -/
def dealTabCards (deck : List Card) : List Card :=
  dealPairs.enum.map fun x =>
    { deck.getD x.1 defaultCard with faceUp := decide (x.2.2 = x.2.1) }

/-- The card objects allocated by the stock loop of `dealCards`:
`{...deck[i], faceUp: false}` for `i` from 28 to the end. -/
def dealStockCards (deck : List Card) : List Card :=
  (deck.drop 28).map fun c => { c with faceUp := false }

/-- References of the stock cards allocated by `dealCards` (allocated after
the 28 tableau copies). -/
def dealStockRefs (deck : List Card) : List Ref :=
  List.range' 28 (deck.length - 28)

/-- `createInitialGameState` from `solitaire.ts`, with the
`shuffleDeck(createDeck())` result passed in as `deck` (the shuffle uses
`Math.random`).  `dealCards` allocates fresh card copies, so the heap holds
exactly the 28 tableau copies followed by the stock copies. -/
def createInitialGameState (deck : List Card) : Engine :=
  { heap := dealTabCards deck ++ dealStockCards deck,
    stock := dealStockRefs deck,
    waste := [],
    foundations := ⟨[], [], [], []⟩,
    tableau := dealTabRefs,
    selectedCard := none,
    moves := 0,
    score := 0,
    canUndo := false,
    gameStats := ⟨0, 0, 0⟩,
    gameHistory := [] }

/-- `GameEngine.dealTableau`: mutates the deck's card objects in place
(`deck[i*7+j].faceUp/location/position`) and pushes their references onto the
columns.  Note the index expression `i * 7 + j` straight from the source. -/
def dealTableau (sdeck : List Ref) (h : Heap) : Heap × List (List Ref) :=
  dealPairs.foldl
    (fun acc ij =>
      let r := sdeck.getD (ij.1 * 7 + ij.2) 0
      let c := hGet acc.1 r
      (acc.1.set r { c with faceUp := decide (ij.1 = ij.2), location := "tableau",
                            position := (ij.2 : Int) },
       acc.2.set ij.2 (acc.2.getD ij.2 [] ++ [r])))
    (h, List.replicate 7 [])

/-- `GameEngine.initializeGame`, with the shuffled reference order passed in
as `sdeck` over an initial heap `h` (for the real engine,
`h = engineCreateDeck` and `sdeck` is a permutation of `0..51`).  The shuffle
copies the array but shares the card objects, and `dealTableau` mutates those
shared objects before `stock = shuffledDeck.slice(28)` is taken. -/
def initializeGame (sdeck : List Ref) (h : Heap) : Engine :=
  let d := dealTableau sdeck h
  { heap := d.1,
    stock := sdeck.drop 28,
    waste := [],
    foundations := ⟨[], [], [], []⟩,
    tableau := d.2,
    selectedCard := none,
    moves := 0,
    score := 0,
    canUndo := false,
    gameStats := ⟨0, 0, 0⟩,
    gameHistory := [] }

/-! ## Frame lemmas: which fields each operation leaves untouched -/

@[simp] theorem revealHiddenCards_stock (s : Engine) :
    (revealHiddenCards s).stock = s.stock := rfl

@[simp] theorem revealHiddenCards_waste (s : Engine) :
    (revealHiddenCards s).waste = s.waste := rfl

@[simp] theorem revealHiddenCards_foundations (s : Engine) :
    (revealHiddenCards s).foundations = s.foundations := rfl

@[simp] theorem revealHiddenCards_tableau (s : Engine) :
    (revealHiddenCards s).tableau = s.tableau := rfl

@[simp] theorem revealHiddenCards_selectedCard (s : Engine) :
    (revealHiddenCards s).selectedCard = s.selectedCard := rfl

@[simp] theorem revealHiddenCards_moves (s : Engine) :
    (revealHiddenCards s).moves = s.moves := rfl

@[simp] theorem revealHiddenCards_canUndo (s : Engine) :
    (revealHiddenCards s).canUndo = s.canUndo := rfl

@[simp] theorem revealHiddenCards_gameStats (s : Engine) :
    (revealHiddenCards s).gameStats = s.gameStats := rfl

@[simp] theorem revealHiddenCards_gameHistory (s : Engine) :
    (revealHiddenCards s).gameHistory = s.gameHistory := rfl

@[simp] theorem removeCardFromSource_heap (s : Engine) (c : Card) :
    (removeCardFromSource s c).heap = s.heap := by
  unfold removeCardFromSource; repeat' split
  all_goals rfl

@[simp] theorem removeCardFromSource_moves (s : Engine) (c : Card) :
    (removeCardFromSource s c).moves = s.moves := by
  unfold removeCardFromSource; repeat' split
  all_goals rfl

@[simp] theorem removeCardFromSource_score (s : Engine) (c : Card) :
    (removeCardFromSource s c).score = s.score := by
  unfold removeCardFromSource; repeat' split
  all_goals rfl

@[simp] theorem removeCardFromSource_canUndo (s : Engine) (c : Card) :
    (removeCardFromSource s c).canUndo = s.canUndo := by
  unfold removeCardFromSource; repeat' split
  all_goals rfl

@[simp] theorem removeCardFromSource_selectedCard (s : Engine) (c : Card) :
    (removeCardFromSource s c).selectedCard = s.selectedCard := by
  unfold removeCardFromSource; repeat' split
  all_goals rfl

@[simp] theorem removeCardFromSource_gameStats (s : Engine) (c : Card) :
    (removeCardFromSource s c).gameStats = s.gameStats := by
  unfold removeCardFromSource; repeat' split
  all_goals rfl

@[simp] theorem removeCardFromSource_gameHistory (s : Engine) (c : Card) :
    (removeCardFromSource s c).gameHistory = s.gameHistory := by
  unfold removeCardFromSource; repeat' split
  all_goals rfl

@[simp] theorem removeAll_heap (l : List Ref) (s : Engine) :
    (removeAll l s).heap = s.heap := by
  induction l generalizing s with
  | nil => rfl
  | cons r rs ih => simp [removeAll, List.foldl_cons] at ih ⊢; simp [ih]

@[simp] theorem removeAll_moves (l : List Ref) (s : Engine) :
    (removeAll l s).moves = s.moves := by
  induction l generalizing s with
  | nil => rfl
  | cons r rs ih => simp [removeAll, List.foldl_cons] at ih ⊢; simp [ih]

@[simp] theorem removeAll_score (l : List Ref) (s : Engine) :
    (removeAll l s).score = s.score := by
  induction l generalizing s with
  | nil => rfl
  | cons r rs ih => simp [removeAll, List.foldl_cons] at ih ⊢; simp [ih]

@[simp] theorem removeAll_canUndo (l : List Ref) (s : Engine) :
    (removeAll l s).canUndo = s.canUndo := by
  induction l generalizing s with
  | nil => rfl
  | cons r rs ih => simp [removeAll, List.foldl_cons] at ih ⊢; simp [ih]

@[simp] theorem removeAll_selectedCard (l : List Ref) (s : Engine) :
    (removeAll l s).selectedCard = s.selectedCard := by
  induction l generalizing s with
  | nil => rfl
  | cons r rs ih => simp [removeAll, List.foldl_cons] at ih ⊢; simp [ih]

@[simp] theorem removeAll_gameStats (l : List Ref) (s : Engine) :
    (removeAll l s).gameStats = s.gameStats := by
  induction l generalizing s with
  | nil => rfl
  | cons r rs ih => simp [removeAll, List.foldl_cons] at ih ⊢; simp [ih]

@[simp] theorem removeAll_gameHistory (l : List Ref) (s : Engine) :
    (removeAll l s).gameHistory = s.gameHistory := by
  induction l generalizing s with
  | nil => rfl
  | cons r rs ih => simp [removeAll, List.foldl_cons] at ih ⊢; simp [ih]

/-! ## Failure atomicity and success bookkeeping of the three executors -/

/-- A rejected foundation move returns the board untouched. -/
theorem moveToFoundation_fail (s : Engine) (m : Move)
    (h : (moveToFoundation s m).success = false) :
    (moveToFoundation s m).newState = s := by
  unfold moveToFoundation at h ⊢
  rcases hfc : findCard s m.cardId with _ | r
  · simp [hfc]
  · simp only [hfc] at h ⊢
    split_ifs at h ⊢ <;> simp_all

/-- A rejected tableau move returns the board untouched. -/
theorem moveToTableau_fail (s : Engine) (m : Move)
    (h : (moveToTableau s m).success = false) :
    (moveToTableau s m).newState = s := by
  unfold moveToTableau at h ⊢
  rcases hfc : findCard s m.cardId with _ | r <;>
    rcases hti : m.targetIndex with _ | ti <;>
      simp only [hfc, hti] at h ⊢
  split_ifs at h ⊢ <;> simp_all

/-- A rejected waste→tableau move returns the board untouched. -/
theorem moveWasteToTableau_fail (s : Engine) (m : Move)
    (h : (moveWasteToTableau s m).success = false) :
    (moveWasteToTableau s m).newState = s := by
  unfold moveWasteToTableau at h ⊢
  rcases hw : s.waste.getLast? with _ | r <;>
    rcases hti : m.targetIndex with _ | ti <;>
      simp only [hw, hti] at h ⊢
  split_ifs at h ⊢ <;> simp_all

/-- A rejected move of any type returns the board untouched. -/
theorem executeMove_fail (s : Engine) (m : Move)
    (h : (executeMove s m).success = false) :
    (executeMove s m).newState = s := by
  unfold executeMove at h ⊢
  rcases hm : m.type <;> simp only [hm] at h ⊢
  · exact moveToFoundation_fail s m h
  · exact moveToTableau_fail s m h
  · exact moveWasteToTableau_fail s m h

/-- A successful foundation move preserves history, stats, selection and the
undo flag and increments the move counter. -/
theorem moveToFoundation_success_fields (s : Engine) (m : Move)
    (h : (moveToFoundation s m).success = true) :
    (moveToFoundation s m).newState.gameHistory = s.gameHistory ∧
    (moveToFoundation s m).newState.gameStats = s.gameStats ∧
    (moveToFoundation s m).newState.moves = s.moves + 1 ∧
    (moveToFoundation s m).newState.selectedCard = s.selectedCard ∧
    (moveToFoundation s m).newState.canUndo = s.canUndo := by
  unfold moveToFoundation at h ⊢
  rcases hfc : findCard s m.cardId with _ | r
  · simp [hfc] at h
  · simp only [hfc] at h ⊢
    split_ifs at h ⊢ <;> simp_all

/-- A successful tableau move preserves history, stats, selection and the
undo flag and increments the move counter. -/
theorem moveToTableau_success_fields (s : Engine) (m : Move)
    (h : (moveToTableau s m).success = true) :
    (moveToTableau s m).newState.gameHistory = s.gameHistory ∧
    (moveToTableau s m).newState.gameStats = s.gameStats ∧
    (moveToTableau s m).newState.moves = s.moves + 1 ∧
    (moveToTableau s m).newState.selectedCard = s.selectedCard ∧
    (moveToTableau s m).newState.canUndo = s.canUndo := by
  unfold moveToTableau at h ⊢
  rcases hfc : findCard s m.cardId with _ | r <;>
    rcases hti : m.targetIndex with _ | ti <;>
      simp only [hfc, hti] at h ⊢
  all_goals try exact Bool.noConfusion h
  split_ifs at h ⊢ <;> simp_all

/-- A successful waste→tableau move preserves history, stats, selection and
the undo flag and increments the move counter. -/
theorem moveWasteToTableau_success_fields (s : Engine) (m : Move)
    (h : (moveWasteToTableau s m).success = true) :
    (moveWasteToTableau s m).newState.gameHistory = s.gameHistory ∧
    (moveWasteToTableau s m).newState.gameStats = s.gameStats ∧
    (moveWasteToTableau s m).newState.moves = s.moves + 1 ∧
    (moveWasteToTableau s m).newState.selectedCard = s.selectedCard ∧
    (moveWasteToTableau s m).newState.canUndo = s.canUndo := by
  unfold moveWasteToTableau at h ⊢
  rcases hw : s.waste.getLast? with _ | r <;>
    rcases hti : m.targetIndex with _ | ti <;>
      simp only [hw, hti] at h ⊢
  all_goals try exact Bool.noConfusion h
  split_ifs at h ⊢ <;> simp_all

/-- A successful move of any type preserves history, stats, selection and the
undo flag and increments the move counter. -/
theorem executeMove_success_fields (s : Engine) (m : Move)
    (h : (executeMove s m).success = true) :
    (executeMove s m).newState.gameHistory = s.gameHistory ∧
    (executeMove s m).newState.gameStats = s.gameStats ∧
    (executeMove s m).newState.moves = s.moves + 1 ∧
    (executeMove s m).newState.selectedCard = s.selectedCard ∧
    (executeMove s m).newState.canUndo = s.canUndo := by
  unfold executeMove at h ⊢
  rcases hm : m.type <;> simp only [hm] at h ⊢
  all_goals try exact Bool.noConfusion h
  · exact moveToFoundation_success_fields s m h
  · exact moveToTableau_success_fields s m h
  · exact moveWasteToTableau_success_fields s m h

/-- Two engine states with equal fields are equal. -/
theorem Engine.eq_of_fields {a b : Engine}
    (h1 : a.heap = b.heap) (h2 : a.stock = b.stock) (h3 : a.waste = b.waste)
    (h4 : a.foundations = b.foundations) (h5 : a.tableau = b.tableau)
    (h6 : a.selectedCard = b.selectedCard) (h7 : a.moves = b.moves)
    (h8 : a.score = b.score) (h9 : a.canUndo = b.canUndo)
    (h10 : a.gameStats = b.gameStats) (h11 : a.gameHistory = b.gameHistory) :
    a = b := by
  cases a; cases b; simp_all

/-- When `executeMove` rejects the move, `makeMove` still returns the board
with the pre-move snapshot pushed (the push happens before validation). -/
theorem makeMove_fail_newState (s : Engine) (m : Move)
    (h : (makeMove s m).success = false) :
    (makeMove s m).newState = { s with gameHistory := s.gameHistory ++ [mkSnapshot s] } := by
  unfold makeMove at h ⊢
  rcases hr : (executeMove { s with gameHistory := s.gameHistory ++ [mkSnapshot s] } m).success
  · simp only [hr, Bool.false_eq_true, if_false]
    exact executeMove_fail _ m hr
  · simp [hr] at h

/-- `makeMove` succeeds exactly when `executeMove` on the snapshot-pushed
state succeeds. -/
theorem makeMove_success_iff (s : Engine) (m : Move) :
    (makeMove s m).success =
      (executeMove { s with gameHistory := s.gameHistory ++ [mkSnapshot s] } m).success := by
  unfold makeMove
  rcases hr : (executeMove { s with gameHistory := s.gameHistory ++ [mkSnapshot s] } m).success <;>
    simp [hr]

/-! ## Concrete boards used in counterexamples and witnesses -/

/-- A fresh deal of the unshuffled module deck (`Math.random` replaced by the
identity permutation): column 0 holds the face-up A♠, and A♣ lies face-down
in the middle of the stock. -/
def demoBoard : Engine := createInitialGameState createDeck

/-- The legal foundation move of the face-up tableau top card A♠. -/
def aceSpadesMove : Move := { type := .foundation, cardId := "♠-A" }

/-- A move whose card id matches no card: always rejected. -/
def unknownCardMove : Move := { type := .foundation, cardId := "missing" }

/-- A foundation move naming the A♣ that is buried face-down in the stock of
`demoBoard`. -/
def buriedAceClubsMove : Move := { type := .foundation, cardId := "♣-A" }

/-- `GameEngine.initializeGame` run with the identity permutation as the
shuffle outcome. -/
def buggyBoard : Engine := initializeGame (List.range 52) engineCreateDeck

/-! ## C9: win predicate -/

/-- C9 (confirmed): `checkWinCondition` returns `true` exactly when all four
foundation piles have length 13. -/
theorem checkWinCondition_iff (s : Engine) :
    checkWinCondition s = true ↔
      s.foundations.spades.length = 13 ∧ s.foundations.hearts.length = 13 ∧
        s.foundations.diamonds.length = 13 ∧ s.foundations.clubs.length = 13 := by
  simp [checkWinCondition, Foundations.values]

/-! ## C7: stock draw and recycle moves do not exist in the engine -/

/-- C7 (code bug): the engine has no execution path for `'stock'` moves at
all.  Whatever the board looks like — stock empty or not, waste empty or
not — `isValidMove` rejects every `'stock'` move and `makeMove` fails with
`"Invalid move type"`; no cards are ever drawn to the waste and the waste is
never recycled.  This contradicts the drawing/recycling behaviour the
specification requires. -/
theorem stock_moves_never_legal (s : Engine) (cid : String)
    (st : Option String) (si ti : Option Nat) :
    isValidMove s { type := .stock, cardId := cid, sourceType := st,
                    sourceIndex := si, targetIndex := ti } = false ∧
    (makeMove s { type := .stock, cardId := cid, sourceType := st,
                  sourceIndex := si, targetIndex := ti }).success = false ∧
    (makeMove s { type := .stock, cardId := cid, sourceType := st,
                  sourceIndex := si, targetIndex := ti }).error =
      some "Invalid move type" := by
  refine ⟨rfl, ?_, ?_⟩ <;> simp [makeMove, executeMove]

/-! ## C2: rejected moves still push a history snapshot -/

/-- C2 counterexample: a rejected move (unknown card id) leaves `makeMove`
unsuccessful, yet the returned board is *not* the input board — its
`gameHistory` has grown by one snapshot. -/
theorem rejected_move_mutates_history_cex :
    (makeMove demoBoard unknownCardMove).success = false ∧
    (makeMove demoBoard unknownCardMove).newState ≠ demoBoard := by
  constructor
  · rfl
  · intro hEq
    exact absurd (congrArg (fun e => e.gameHistory.length) hEq) (by decide)

/-- C2 as amended: a rejected move (with an in-range target index, since an
out-of-range one makes the TypeScript throw) returns an error result and
leaves every part of the board unchanged *except* `gameHistory`, which gains
the pre-move snapshot pushed before validation. -/
theorem rejected_move_frame (s : Engine) (m : Move)
    (ht : ∀ i, m.targetIndex = some i → i < s.tableau.length)
    (h : (makeMove s m).success = false) :
    (makeMove s m).error.isSome = true ∧
    (makeMove s m).newState =
      { s with gameHistory := s.gameHistory ++ [mkSnapshot s] } := by
  refine ⟨?_, makeMove_fail_newState s m h⟩
  unfold makeMove at h ⊢
  rcases hr : (executeMove { s with gameHistory := s.gameHistory ++ [mkSnapshot s] } m).success
  · simp only [hr, Bool.false_eq_true, if_false]
    generalize { s with gameHistory := s.gameHistory ++ [mkSnapshot s] } = s1 at hr ⊢
    unfold executeMove at hr ⊢
    rcases hm : m.type <;> simp only [hm] at hr ⊢
    · rfl
    · rfl
    · unfold moveToFoundation at hr ⊢
      rcases hfc : findCard s1 m.cardId with _ | r <;> simp only [hfc] at hr ⊢
      · rfl
      · split_ifs at hr ⊢ <;> simp_all
    · unfold moveToTableau at hr ⊢
      rcases hfc : findCard s1 m.cardId with _ | r <;>
        rcases hti : m.targetIndex with _ | ti <;> simp only [hfc, hti] at hr ⊢
      · rfl
      · rfl
      · rfl
      · split_ifs at hr ⊢ <;> simp_all
    · unfold moveWasteToTableau at hr ⊢
      rcases hw : s1.waste.getLast? with _ | r <;>
        rcases hti : m.targetIndex with _ | ti <;> simp only [hw, hti] at hr ⊢
      · rfl
      · rfl
      · rfl
      · split_ifs at hr ⊢ <;> simp_all
  · simp [hr] at h

/-- Witness for `rejected_move_frame` at a concrete rejected move. -/
theorem rejected_move_frame_witness :
    (makeMove demoBoard unknownCardMove).error.isSome = true ∧
    (makeMove demoBoard unknownCardMove).newState =
      { demoBoard with gameHistory := demoBoard.gameHistory ++ [mkSnapshot demoBoard] } :=
  rejected_move_frame demoBoard unknownCardMove
    (fun _ hi => Option.noConfusion hi) (by decide)

/-! ## C3: the validator is not pure -/

/-- C3 counterexample: `isValidMove` answers `true` for the legal A♠
foundation move, and the board object it was called on has been mutated — the
move was actually performed during validation. -/
theorem isValidMove_impure_cex :
    isValidMove demoBoard aceSpadesMove = true ∧
    isValidMoveState demoBoard aceSpadesMove ≠ demoBoard := by
  constructor
  · rfl
  · intro hEq
    exact absurd (congrArg Engine.moves hEq) (by decide)

/-- C3 as amended: `isValidMove` returns a boolean, but it leaves the board
unchanged *exactly when it returns `false`*; when it returns `true` it has
applied the move to the board (it delegates to the mutating executors).
Target indices are restricted to the in-range case, where the embedding is
faithful (out-of-range indices make the TypeScript throw). -/
theorem isValidMove_pure_iff_false (s : Engine) (m : Move)
    (ht : ∀ i, m.targetIndex = some i → i < s.tableau.length) :
    isValidMoveState s m = s ↔ isValidMove s m = false := by
  constructor
  · intro hEq
    by_contra hTrue
    rw [Bool.not_eq_false] at hTrue
    unfold isValidMove at hTrue
    unfold isValidMoveState at hEq
    rcases hm : m.type <;> simp only [hm] at hTrue hEq
    · exact Bool.noConfusion hTrue
    · exact Bool.noConfusion hTrue
    · have := (moveToFoundation_success_fields s m hTrue).2.2.1
      rw [hEq] at this
      omega
    · have := (moveToTableau_success_fields s m hTrue).2.2.1
      rw [hEq] at this
      omega
    · have := (moveWasteToTableau_success_fields s m hTrue).2.2.1
      rw [hEq] at this
      omega
  · intro hFalse
    unfold isValidMove at hFalse
    unfold isValidMoveState
    rcases hm : m.type <;> simp only [hm] at hFalse ⊢
    · exact moveToFoundation_fail s m hFalse
    · exact moveToTableau_fail s m hFalse
    · exact moveWasteToTableau_fail s m hFalse

/-- Witness for `isValidMove_pure_iff_false` at a concrete rejected move. -/
theorem isValidMove_pure_iff_false_witness :
    isValidMoveState demoBoard unknownCardMove = demoBoard :=
  (isValidMove_pure_iff_false demoBoard unknownCardMove
    (fun _ hi => Option.noConfusion hi)).mpr (by decide)

/-! ## C6: foundation moves do not require a top card -/

/-- C6 counterexample: on the fresh identity deal, the foundation move naming
A♣ succeeds even though that card is face-down in the middle of the stock
(reference 39 is in the stock but not its last element, the waste is empty,
and no tableau card has that id). -/
theorem foundation_accepts_buried_stock_card_cex :
    (makeMove demoBoard buriedAceClubsMove).success = true ∧
    (39 : Ref) ∈ demoBoard.stock ∧
    demoBoard.stock.getLast? ≠ some 39 ∧
    (hGet demoBoard.heap 39).faceUp = false ∧
    (hGet demoBoard.heap 39).id = "♣-A" ∧
    demoBoard.waste = [] ∧
    (∀ r ∈ demoBoard.tableau.flatten, (hGet demoBoard.heap r).id ≠ "♣-A") := by
  refine ⟨rfl, by decide, by decide, rfl, rfl, rfl, by decide⟩

/-- Success characterization of `moveToFoundation`: only `findCard` and the
foundation sequence rule matter. -/
theorem moveToFoundation_success_iff_aux (s : Engine) (m : Move) :
    (moveToFoundation s m).success = true ↔
      ∃ r, findCard s m.cardId = some r ∧
        ((s.foundations.get (hGet s.heap r).suit = [] ∧ (hGet s.heap r).rank = Rank.rA) ∨
         (s.foundations.get (hGet s.heap r).suit ≠ [] ∧
           (hGet s.heap r).value =
             (hGet s.heap ((s.foundations.get (hGet s.heap r).suit).getLastD 0)).value + 1)) := by
  unfold moveToFoundation
  rcases hfc : findCard s m.cardId with _ | r
  · simp
  · simp only [hfc, Option.some.injEq]
    split_ifs with h1 h2
    · simp only [Bool.false_eq_true, false_iff]
      rintro ⟨r', rfl, hP⟩
      rcases hP with ⟨hf, hA⟩ | ⟨hf, _⟩
      · exact h1.2 hA
      · exact hf h1.1
    · simp only [Bool.false_eq_true, false_iff]
      rintro ⟨r', rfl, hP⟩
      rcases hP with ⟨hf, _⟩ | ⟨_, hv⟩
      · exact h2.1 hf
      · exact h2.2 hv
    · simp only [true_iff]
      refine ⟨r, rfl, ?_⟩
      by_cases hf : s.foundations.get (hGet s.heap r).suit = []
      · left
        exact ⟨hf, by_contra fun hA => h1 ⟨hf, hA⟩⟩
      · right
        exact ⟨hf, by_contra fun hv => h2 ⟨hf, hv⟩⟩

/-- C6 as amended: a foundation move succeeds *iff* `findCard` locates a card
with the requested id anywhere in the board and that card satisfies the
foundation sequence rule (empty foundation → Ace, otherwise value = top + 1).
No condition requires the card to be a face-up top card of a tableau column
or the waste top: buried cards, face-down cards and stock cards are movable
to a foundation. -/
theorem moveToFoundation_success_iff (s : Engine) (m : Move) :
    (moveToFoundation s m).success = true ↔
      ∃ r, findCard s m.cardId = some r ∧
        ((s.foundations.get (hGet s.heap r).suit = [] ∧ (hGet s.heap r).rank = Rank.rA) ∨
         (s.foundations.get (hGet s.heap r).suit ≠ [] ∧
           (hGet s.heap r).value =
             (hGet s.heap ((s.foundations.get (hGet s.heap r).suit).getLastD 0)).value + 1)) :=
  moveToFoundation_success_iff_aux s m

/-! ## C5: conservation is broken by the engine's deal itself -/

/-- C5 (code bug): `GameEngine.initializeGame` (here at the identity shuffle;
the defect is independent of the permutation) already violates conservation.
`dealTableau` reads `deck[i*7+j]` while the stock takes `slice(28)`, so the
board holds 52 card slots but six cards (shuffled positions 32, 33, 34, 40,
41, 48) sit in both the tableau and the stock while six cards (positions 7,
14, 15, 21, 22, 23 — here 8♠, 2♥, 3♥, 9♥, 10♥, J♥) are in no pile at all:
the id multiset has duplicates and misses cards. -/
theorem initializeGame_conservation_bug :
    (boardIds buggyBoard).length = 52 ∧
    ¬ (boardIds buggyBoard).Nodup ∧
    (32 : Ref) ∈ buggyBoard.stock ∧
    (32 : Ref) ∈ buggyBoard.tableau.flatten ∧
    "8-♠" ∉ boardIds buggyBoard ∧
    (hGet buggyBoard.heap 7).id = "8-♠" := by
  refine ⟨rfl, by decide, by decide, by decide, by decide, rfl⟩

/-! ## C8: deal layout -/

/-- C8 (code bug): the module-level dealer `createInitialGameState`/
`dealCards` produces, for every 52-card deck, tableau columns of sizes 1–7
with exactly the last card of each column face-up, and 24 stock cards — the
cards at deck positions 28–51 — all face-down, as the claim states.  But the
second dealer, `GameEngine.initializeGame`, violates the claim: its stock
(`slice(28)`) shares card objects with the tableau, and because `dealTableau`
flipped the objects at shuffled positions 32, 40 and 48 face-up, its
24-card stock contains face-up cards. -/
theorem deal_layout_dealCards_ok_initializeGame_bug :
    (∀ deck : List Card, deck.length = 52 →
      (createInitialGameState deck).tableau.map List.length = [1, 2, 3, 4, 5, 6, 7] ∧
      (∀ p ∈ (createInitialGameState deck).tableau, ∀ r, p.getLast? = some r →
        (hGet (createInitialGameState deck).heap r).faceUp = true) ∧
      (∀ p ∈ (createInitialGameState deck).tableau, ∀ r ∈ p.dropLast,
        (hGet (createInitialGameState deck).heap r).faceUp = false) ∧
      (createInitialGameState deck).stock.length = 24 ∧
      (∀ i, i < 24 →
        (createInitialGameState deck).stock.getD i 0 = 28 + i ∧
        hGet (createInitialGameState deck).heap (28 + i) =
          { deck.getD (28 + i) defaultCard with faceUp := false })) ∧
    (buggyBoard.stock.length = 24 ∧
     (32 : Ref) ∈ buggyBoard.stock ∧
     (hGet buggyBoard.heap 32).faceUp = true ∧
     (hGet buggyBoard.heap 40).faceUp = true ∧
     (hGet buggyBoard.heap 48).faceUp = true) := by
  constructor
  · intro deck h52
    have htab : (createInitialGameState deck).tableau =
        [[0], [1, 7], [2, 8, 13], [3, 9, 14, 18], [4, 10, 15, 19, 22],
         [5, 11, 16, 20, 23, 25], [6, 12, 17, 21, 24, 26, 27]] := by
      show dealTabRefs = _
      decide
    refine ⟨by rw [htab]; rfl, ?_, ?_, ?_, ?_⟩
    · rw [htab]
      intro p hp r hr
      fin_cases hp <;> (obtain rfl := Option.some.inj hr; rfl)
    · rw [htab]
      intro p hp r hr
      fin_cases hp <;> fin_cases hr <;> rfl
    · show (dealStockRefs deck).length = 24
      simp [dealStockRefs, h52]
    · intro i hi
      constructor
      · show (dealStockRefs deck).getD i 0 = 28 + i
        rw [dealStockRefs, h52, List.getD_eq_getElem?_getD,
          List.getElem?_range' _ _ (show i < 52 - 28 by omega)]
        simp
      · show hGet (dealTabCards deck ++ dealStockCards deck) (28 + i) = _
        have hlen : (dealTabCards deck).length = 28 := by
          simp [dealTabCards]; decide
        rw [hGet, List.getD_append_right _ _ _ _ (by rw [hlen]; omega), hlen]
        have h28 : 28 + i - 28 = i := by omega
        rw [h28, dealStockCards, List.getD_eq_getElem?_getD, List.getElem?_map,
          List.getElem?_drop]
        have hidx : 28 + i < deck.length := by omega
        rw [List.getElem?_eq_getElem hidx]
        simp [List.getD_eq_getElem?_getD, List.getElem?_eq_getElem hidx]
  · exact ⟨rfl, by decide, rfl, rfl, rfl⟩

/-- Witness for the universally quantified half of
`deal_layout_dealCards_ok_initializeGame_bug`, instantiated with the
unshuffled module deck. -/
theorem deal_layout_witness :
    createDeck.length = 52 ∧
    (createInitialGameState createDeck).tableau.map List.length = [1, 2, 3, 4, 5, 6, 7] ∧
    (createInitialGameState createDeck).stock.length = 24 :=
  ⟨by decide,
   ((deal_layout_dealCards_ok_initializeGame_bug.1 createDeck (by decide)).1),
   ((deal_layout_dealCards_ok_initializeGame_bug.1 createDeck (by decide)).2.2.2.1)⟩

/-! ## C1: undo is only a partial round-trip -/

/-- C1 counterexample: applying the legal A♠ foundation move and undoing it
does *not* restore the original board — the move counter and score keep their
post-move values (1 and 10 instead of 0 and 0). -/
theorem undo_roundtrip_cex :
    isValidMove demoBoard aceSpadesMove = true ∧
    (undo (makeMove demoBoard aceSpadesMove).newState).newState ≠ demoBoard ∧
    (undo (makeMove demoBoard aceSpadesMove).newState).newState.moves = 1 ∧
    demoBoard.moves = 0 ∧
    (undo (makeMove demoBoard aceSpadesMove).newState).newState.score = 10 ∧
    demoBoard.score = 0 := by
  refine ⟨rfl, ?_, rfl, rfl, rfl, rfl⟩
  intro hEq
  exact absurd (congrArg Engine.moves hEq) (by decide)

/-- C1 as amended: after a successful `makeMove` (with an in-range target
index — out-of-range ones make the TypeScript throw), `undo` succeeds and
restores every pile's contents and order, the history stack and the
`gameStats` record, but the returned board keeps the *post-move* heap (so a
card flipped face-up by `revealHiddenCards` during the move stays face-up:
the shallow snapshot shares the card objects), keeps the post-move top-level
`moves` (= pre-move + 1) and `score`, and clears `selectedCard`. -/
theorem undo_roundtrip_partial (s : Engine) (m : Move)
    (ht : ∀ i, m.targetIndex = some i → i < s.tableau.length)
    (h : (makeMove s m).success = true) :
    (undo (makeMove s m).newState).success = true ∧
    (undo (makeMove s m).newState).newState =
      { s with heap := (makeMove s m).newState.heap,
               moves := s.moves + 1,
               score := (makeMove s m).newState.score,
               selectedCard := none,
               canUndo := !s.gameHistory.isEmpty } := by
  have hexec : (executeMove { s with gameHistory := s.gameHistory ++ [mkSnapshot s] } m).success
      = true := by
    by_contra hfalse
    rw [Bool.not_eq_true] at hfalse
    unfold makeMove at h
    simp [hfalse] at h
  have hms : makeMove s m =
      { executeMove { s with gameHistory := s.gameHistory ++ [mkSnapshot s] } m with
        newState :=
          { (executeMove { s with gameHistory := s.gameHistory ++ [mkSnapshot s] } m).newState
            with canUndo := true } } := by
    unfold makeMove
    simp [hexec]
  obtain ⟨hgh, hgs, hmv, hsel, _⟩ :=
    executeMove_success_fields { s with gameHistory := s.gameHistory ++ [mkSnapshot s] } m hexec
  rw [hms]
  generalize hns :
    (executeMove { s with gameHistory := s.gameHistory ++ [mkSnapshot s] } m).newState = ns
      at hgh hgs hmv hsel
  simp only at hgh hgs hmv hsel
  unfold undo
  have hgh' : ({ ns with canUndo := true } : Engine).gameHistory =
      s.gameHistory ++ [mkSnapshot s] := hgh
  rw [hgh', List.getLast?_concat, List.dropLast_concat]
  refine ⟨rfl, ?_⟩
  apply Engine.eq_of_fields <;> simp [mkSnapshot, hgs, hmv, hsel, hgh]

/-- Witness for `undo_roundtrip_partial` at the A♠ foundation move. -/
theorem undo_roundtrip_partial_witness :
    (undo (makeMove demoBoard aceSpadesMove).newState).success = true ∧
    (undo (makeMove demoBoard aceSpadesMove).newState).newState =
      { demoBoard with heap := (makeMove demoBoard aceSpadesMove).newState.heap,
                       moves := demoBoard.moves + 1,
                       score := (makeMove demoBoard aceSpadesMove).newState.score,
                       selectedCard := none,
                       canUndo := !demoBoard.gameHistory.isEmpty } :=
  undo_roundtrip_partial demoBoard aceSpadesMove
    (fun _ hi => Option.noConfusion hi) (by decide)

/-! ## C4: enumerator soundness -/

/-- In a list whose images under `f` are distinct, `find?` for the image of a
member returns exactly that member. -/
theorem find_first_eq {α β : Type} [DecidableEq β] (f : α → β) (r : α) :
    ∀ l : List α, r ∈ l → (l.map f).Nodup →
      l.find? (fun x => decide (f x = f r)) = some r := by
  intro l
  induction l with
  | nil => intro hr _; cases hr
  | cons x xs ih =>
    intro hr hnd
    by_cases hx : f x = f r
    · rw [List.find?_cons_of_pos _ (by simpa using hx)]
      rcases List.mem_cons.mp hr with rfl | hmem
      · rfl
      · exfalso
        have hfr : f r ∈ xs.map f := List.mem_map_of_mem f hmem
        rw [← hx] at hfr
        exact (List.nodup_cons.mp (by simpa using hnd)).1 hfr
    · rw [List.find?_cons_of_neg _ (by simpa using hx)]
      refine ih ?_ (List.nodup_cons.mp (by simpa using hnd)).2
      rcases List.mem_cons.mp hr with rfl | hmem
      · exact absurd rfl hx
      · exact hmem

/-- On a board with distinct card ids, `findCard` applied to the id of a card
in the board finds exactly that card. -/
theorem findCard_mem_eq (s : Engine) (r : Ref) (hr : r ∈ boardRefs s)
    (hnd : (boardIds s).Nodup) :
    findCard s (hGet s.heap r).id = some r := by
  unfold findCard
  exact find_first_eq (fun x => (hGet s.heap x).id) r _ hr hnd

/-- Tableau cards are board cards. -/
theorem mem_boardRefs_of_tableau (s : Engine) (p : List Ref) (r : Ref)
    (hp : p ∈ s.tableau) (hr : r ∈ p) : r ∈ boardRefs s := by
  unfold boardRefs
  simp only [List.mem_append, List.mem_flatten]
  exact Or.inl (Or.inr ⟨p, hp, hr⟩)

/-- Splitting `l.drop n = x :: xs` into an indexed read and the next drop. -/
theorem drop_eq_cons_getD {α : Type} (d : α) :
    ∀ (l : List α) (n : Nat) (x : α) (xs : List α), l.drop n = x :: xs →
      l.getD n d = x ∧ l.drop (n + 1) = xs := by
  intro l
  induction l with
  | nil => intro n x xs h; rw [List.drop_nil] at h; cases h
  | cons a as ih =>
    intro n x xs h
    cases n with
    | zero =>
      rw [List.drop_zero] at h
      cases h
      exact ⟨rfl, by simp⟩
    | succ k =>
      rw [List.drop_succ_cons] at h
      obtain ⟨h1, h2⟩ := ih k x xs h
      exact ⟨by simpa using h1, by simpa using h2⟩

/-- Every move produced by the tableau→foundation block passes validation. -/
theorem foundationMovesAux_sound (s : Engine) (hnd : (boardIds s).Nodup) :
    ∀ (ps : List (List Ref)) (i : Nat), (∀ p ∈ ps, p ∈ s.tableau) →
      ∀ m ∈ foundationMovesAux s i ps, isValidMove s m = true := by
  intro ps
  induction ps with
  | nil => intro i _ m hm; cases hm
  | cons p ps ih =>
    intro i hsub m hm
    rw [foundationMovesAux] at hm
    rcases List.mem_append.mp hm with hm1 | hm2
    · rcases hl : p.getLast? with _ | r
      · rw [hl] at hm1; cases hm1
      · rw [hl] at hm1
        simp only at hm1
        split_ifs at hm1 with hface hcond
        · rcases List.mem_cons.mp hm1 with rfl | hm1'
          · show isValidMove s _ = true
            unfold isValidMove
            simp only
            have hr : r ∈ boardRefs s :=
              mem_boardRefs_of_tableau s p r (hsub p (List.mem_cons_self p ps))
                (List.mem_of_getLast?_eq_some hl)
            exact (moveToFoundation_success_iff_aux s _).mpr
              ⟨r, findCard_mem_eq s r hr hnd, hcond⟩
          · cases hm1'
        · cases hm1
        · cases hm1
    · exact ih (i + 1) (fun q hq => hsub q (List.mem_cons_of_mem p hq)) m hm2

/-- Every move produced by the inner tableau→tableau target loop passes
validation. -/
theorem tableauTargetsAux_sound (s : Engine) (hnd : (boardIds s).Nodup)
    (si : Nat) (r : Ref) (hr : r ∈ boardRefs s) :
    ∀ (tps : List (List Ref)) (ti : Nat), s.tableau.drop ti = tps →
      ∀ m ∈ tableauTargetsAux s si (hGet s.heap r) ti tps, isValidMove s m = true := by
  intro tps
  induction tps with
  | nil => intro ti _ m hm; cases hm
  | cons tp tps ih =>
    intro ti hdrop m hm
    obtain ⟨hgetD, hdrop'⟩ := drop_eq_cons_getD [] s.tableau ti tp tps hdrop
    rw [tableauTargetsAux] at hm
    rcases List.mem_append.mp hm with hm1 | hm2
    · split_ifs at hm1 with hcond
      · rcases List.mem_cons.mp hm1 with rfl | hm1'
        · show isValidMove s _ = true
          unfold isValidMove
          simp only
          unfold moveToTableau
          rw [findCard_mem_eq s r hr hnd]
          simp only [hgetD]
          rw [if_pos hcond.2]
        · cases hm1'
      · cases hm1
    · exact ih (ti + 1) hdrop' m hm2

/-- Every move produced by the tableau→tableau block passes validation. -/
theorem tableauMovesAux_sound (s : Engine) (hnd : (boardIds s).Nodup) :
    ∀ (ps : List (List Ref)) (si : Nat), (∀ p ∈ ps, p ∈ s.tableau) →
      ∀ m ∈ tableauMovesAux s si ps, isValidMove s m = true := by
  intro ps
  induction ps with
  | nil => intro si _ m hm; cases hm
  | cons p ps ih =>
    intro si hsub m hm
    rw [tableauMovesAux] at hm
    rcases List.mem_append.mp hm with hm1 | hm2
    · rcases hl : p.getLast? with _ | r
      · rw [hl] at hm1; cases hm1
      · rw [hl] at hm1
        simp only at hm1
        split_ifs at hm1 with hface
        · have hr : r ∈ boardRefs s :=
            mem_boardRefs_of_tableau s p r (hsub p (List.mem_cons_self p ps))
              (List.mem_of_getLast?_eq_some hl)
          exact tableauTargetsAux_sound s hnd si r hr s.tableau 0 (List.drop_zero _) m hm1
        · cases hm1
    · exact ih (si + 1) (fun q hq => hsub q (List.mem_cons_of_mem p hq)) m hm2

/-- Every move produced by the waste→tableau target loop passes validation. -/
theorem wasteTargetsAux_sound (s : Engine) (r : Ref)
    (hw : s.waste.getLast? = some r) :
    ∀ (tps : List (List Ref)) (ti : Nat), s.tableau.drop ti = tps →
      ∀ m ∈ wasteTargetsAux s (hGet s.heap r) ti tps, isValidMove s m = true := by
  intro tps
  induction tps with
  | nil => intro ti _ m hm; cases hm
  | cons tp tps ih =>
    intro ti hdrop m hm
    obtain ⟨hgetD, hdrop'⟩ := drop_eq_cons_getD [] s.tableau ti tp tps hdrop
    rw [wasteTargetsAux] at hm
    rcases List.mem_append.mp hm with hm1 | hm2
    · split_ifs at hm1 with hcond
      · rcases List.mem_cons.mp hm1 with rfl | hm1'
        · show isValidMove s _ = true
          unfold isValidMove
          simp only
          unfold moveWasteToTableau
          rw [hw]
          simp only [hgetD]
          rw [if_pos hcond]
        · cases hm1'
      · cases hm1
    · exact ih (ti + 1) hdrop' m hm2

/-- C4 (confirmed): on any board whose card ids are pairwise distinct (the
conservation invariant of the spec), every move returned by
`getAllPossibleMoves` is accepted by `isValidMove`. -/
theorem getAllPossibleMoves_sound (s : Engine) (hnd : (boardIds s).Nodup) :
    ∀ m ∈ getAllPossibleMoves s, isValidMove s m = true := by
  intro m hm
  unfold getAllPossibleMoves at hm
  rcases List.mem_append.mp hm with hm' | hm3
  · rcases List.mem_append.mp hm' with hm1 | hm2
    · exact foundationMovesAux_sound s hnd s.tableau 0 (fun _ h => h) m hm1
    · exact tableauMovesAux_sound s hnd s.tableau 0 (fun _ h => h) m hm2
  · rcases hw : s.waste.getLast? with _ | r
    · rw [hw] at hm3; cases hm3
    · rw [hw] at hm3
      exact wasteTargetsAux_sound s r hw s.tableau 0 (List.drop_zero _) m hm3

/-- Witness for `getAllPossibleMoves_sound` on the fresh identity deal (three
moves are enumerated there: A♠ and A♥ to their foundations and A♠ onto the
2♦). -/
theorem getAllPossibleMoves_sound_witness :
    (boardIds demoBoard).Nodup ∧
    (getAllPossibleMoves demoBoard).all (fun m => isValidMove demoBoard m) = true :=
  ⟨by decide, List.all_eq_true.mpr (getAllPossibleMoves_sound demoBoard (by decide))⟩

/-! ## C10: exposed tableau tops are always face-up -/

/-- Reading through an in-place update of a card object. -/
theorem hGet_set (h : Heap) (i : Nat) (c : Card) (r : Nat) :
    hGet (h.set i c) r = if i = r ∧ i < h.length then c else hGet h r := by
  unfold hGet
  by_cases hij : i = r
  · subst hij
    by_cases hlen : i < h.length
    · simp [List.getD_eq_getElem?_getD, List.getElem?_set_self hlen, hlen]
    · rw [List.set_eq_of_length_le (by omega)]
      simp [hlen]
  · simp [List.getD_eq_getElem?_getD, List.getElem?_set_ne hij, hij]

@[simp] theorem revealStep_heap_length (acc : Heap × Int) (pile : List Ref) :
    (revealStep acc pile).1.length = acc.1.length := by
  unfold revealStep
  repeat' split
  all_goals simp
  all_goals split_ifs
  all_goals simp

@[simp] theorem reveal_fold_heap_length (tabs : List (List Ref)) (acc : Heap × Int) :
    (tabs.foldl revealStep acc).1.length = acc.1.length := by
  induction tabs generalizing acc with
  | nil => rfl
  | cons q qs ih => rw [List.foldl_cons, ih, revealStep_heap_length]

@[simp] theorem revealHiddenCards_heap_length (s : Engine) :
    (revealHiddenCards s).heap.length = s.heap.length := by
  unfold revealHiddenCards
  simp

/-- A reveal step never turns a face-up card face-down. -/
theorem revealStep_faceUp_mono (acc : Heap × Int) (pile : List Ref) (r : Ref)
    (h : (hGet acc.1 r).faceUp = true) :
    (hGet (revealStep acc pile).1 r).faceUp = true := by
  unfold revealStep
  rcases hl : pile.getLast? with _ | r'
  · exact h
  · simp only
    split_ifs with hface
    · exact h
    · rw [hGet_set]
      split_ifs with hir
      · rfl
      · exact h

/-- The reveal loop never turns a face-up card face-down. -/
theorem reveal_fold_faceUp_mono (tabs : List (List Ref)) (acc : Heap × Int) (r : Ref)
    (h : (hGet acc.1 r).faceUp = true) :
    (hGet (tabs.foldl revealStep acc).1 r).faceUp = true := by
  induction tabs generalizing acc with
  | nil => exact h
  | cons q qs ih => exact ih (revealStep acc q) (revealStep_faceUp_mono acc q r h)

theorem revealHiddenCards_faceUp_mono (s : Engine) (r : Ref)
    (h : (hGet s.heap r).faceUp = true) :
    (hGet (revealHiddenCards s).heap r).faceUp = true :=
  reveal_fold_faceUp_mono s.tableau (s.heap, s.score) r h

/-- After one reveal step on a pile with an in-range top card, that top card
is face-up. -/
theorem revealStep_top_faceUp (acc : Heap × Int) (pile : List Ref) (r : Ref)
    (hl : pile.getLast? = some r) (hr : r < acc.1.length) :
    (hGet (revealStep acc pile).1 r).faceUp = true := by
  unfold revealStep
  rw [hl]
  simp only
  split_ifs with hface
  · exact hface
  · rw [hGet_set]
    rw [if_pos ⟨rfl, hr⟩]

/-- After the reveal loop, every pile of the processed list with an in-range
top card has it face-up. -/
theorem reveal_fold_topsUp (tabs : List (List Ref)) (acc : Heap × Int)
    (hok : ∀ p ∈ tabs, ∀ r, p.getLast? = some r → r < acc.1.length) :
    ∀ p ∈ tabs, ∀ r, p.getLast? = some r →
      (hGet ((tabs.foldl revealStep acc).1) r).faceUp = true := by
  induction tabs generalizing acc with
  | nil => intro p hp; cases hp
  | cons q qs ih =>
    intro p hp r hl
    rw [List.foldl_cons]
    rcases List.mem_cons.mp hp with rfl | hmem
    · exact reveal_fold_faceUp_mono qs _ r
        (revealStep_top_faceUp acc p r hl (hok p (List.mem_cons_self p qs) r hl))
    · exact ih (revealStep acc q)
        (fun p' hp' r' hl' => by
          rw [revealStep_heap_length]
          exact hok p' (List.mem_cons_of_mem q hp') r' hl')
        p hmem r hl

/-- `revealHiddenCards` leaves every (in-range-topped) tableau pile with a
face-up top card. -/
theorem revealHiddenCards_topsUp (s : Engine)
    (hok : ∀ p ∈ s.tableau, ∀ r, p.getLast? = some r → r < s.heap.length) :
    ∀ p ∈ s.tableau, ∀ r, p.getLast? = some r →
      (hGet (revealHiddenCards s).heap r).faceUp = true := by
  unfold revealHiddenCards
  exact reveal_fold_topsUp s.tableau (s.heap, s.score) hok

/-- The score credited by the reveal loop: +5 for each pile whose top card
was face-down, provided the top cards are pairwise distinct objects. -/
theorem reveal_fold_score (tabs : List (List Ref)) :
    ∀ (h : Heap) (sc : Int), (tabs.filterMap List.getLast?).Nodup →
      (tabs.foldl revealStep (h, sc)).2 =
        sc + 5 * ((tabs.filter fun p =>
            match p.getLast? with
            | some r => !(hGet h r).faceUp
            | none => false).length : Int) := by
  induction tabs with
  | nil => intro h sc _; simp
  | cons q qs ih =>
    intro h sc hnd
    rw [List.foldl_cons, List.filter_cons]
    rcases hl : q.getLast? with _ | r
    · have hstep : revealStep (h, sc) q = (h, sc) := by
        unfold revealStep; rw [hl]
      rw [hstep]
      rw [List.filterMap_cons, hl] at hnd
      simp only [hl, Bool.false_eq_true, if_false]
      exact ih h sc hnd
    · rw [List.filterMap_cons, hl] at hnd
      have hnotmem : r ∉ qs.filterMap List.getLast? := (List.nodup_cons.mp hnd).1
      rcases hface : (hGet h r).faceUp
      · -- face-down: flip and credit 5
        have hstep : revealStep (h, sc) q =
            (h.set r { hGet h r with faceUp := true }, sc + 5) := by
          unfold revealStep; rw [hl]; simp [hface]
        rw [hstep, ih _ _ (List.nodup_cons.mp hnd).2]
        have hfilter : (qs.filter fun p =>
            match p.getLast? with
            | some r' => !(hGet (h.set r { hGet h r with faceUp := true }) r').faceUp
            | none => false) = (qs.filter fun p =>
            match p.getLast? with
            | some r' => !(hGet h r').faceUp
            | none => false) := by
          apply List.filter_congr
          intro p hp
          rcases hl' : p.getLast? with _ | r'
          · rfl
          · simp only
            have hr' : r' ≠ r := by
              intro hEq
              exact hnotmem (hEq ▸ List.mem_filterMap.mpr ⟨p, hp, hl'⟩)
            rw [hGet_set]
            rw [if_neg (by intro hc; exact hr' hc.1.symm)]
        rw [hfilter]
        simp only [hl, hface]
        simp only [Bool.not_false, if_pos]
        simp [List.length_cons]
        ring
      · -- already face-up: no credit
        have hstep : revealStep (h, sc) q = (h, sc) := by
          unfold revealStep; rw [hl]; simp [hface]
        rw [hstep, ih _ _ (List.nodup_cons.mp hnd).2]
        simp only [hl, hface]
        simp

/-- Membership in the board's references, unfolded. -/
theorem mem_boardRefs_iff (s : Engine) (r : Ref) :
    r ∈ boardRefs s ↔
      r ∈ s.stock ∨ r ∈ s.waste ∨ (∃ p ∈ s.tableau, r ∈ p) ∨
        ∃ su, r ∈ s.foundations.get su := by
  unfold boardRefs
  simp only [List.mem_append, List.mem_flatten, Foundations.values, List.mem_cons,
    List.not_mem_nil, or_false, or_assoc]
  constructor
  · rintro (h | h | ⟨p, hp, hr⟩ | ⟨l, hl, hr⟩)
    · exact Or.inl h
    · exact Or.inr (Or.inl h)
    · exact Or.inr (Or.inr (Or.inl ⟨p, hp, hr⟩))
    · refine Or.inr (Or.inr (Or.inr ?_))
      rcases hl with rfl | rfl | rfl | rfl
      · exact ⟨.spades, hr⟩
      · exact ⟨.hearts, hr⟩
      · exact ⟨.diamonds, hr⟩
      · exact ⟨.clubs, hr⟩
  · rintro (h | h | ⟨p, hp, hr⟩ | ⟨su, hr⟩)
    · exact Or.inl h
    · exact Or.inr (Or.inl h)
    · exact Or.inr (Or.inr (Or.inl ⟨p, hp, hr⟩))
    · refine Or.inr (Or.inr (Or.inr ?_))
      cases su
      · exact ⟨s.foundations.spades, Or.inl rfl, hr⟩
      · exact ⟨s.foundations.hearts, Or.inr (Or.inl rfl), hr⟩
      · exact ⟨s.foundations.diamonds, Or.inr (Or.inr (Or.inl rfl)), hr⟩
      · exact ⟨s.foundations.clubs, Or.inr (Or.inr (Or.inr rfl)), hr⟩

theorem Foundations.get_setPile (f : Foundations) (su : Suit) (l : List Ref) (g : Suit) :
    (f.setPile su l).get g = if g = su then l else f.get g := by
  cases su <;> cases g <;> simp [Foundations.setPile, Foundations.get]

/-- Removal returns a sub-collection of the original references. -/
theorem removeFirstById_subset (h : Heap) (cid : String) :
    ∀ (l l' : List Ref), removeFirstById h cid l = some l' → ∀ r ∈ l', r ∈ l := by
  intro l
  induction l with
  | nil => intro l' h'; cases h'
  | cons x xs ih =>
    intro l' h' r hr
    rw [removeFirstById] at h'
    split_ifs at h' with hid
    · cases h'
      exact List.mem_cons_of_mem x hr
    · rcases hrec : removeFirstById h cid xs with _ | xs'
      · rw [hrec] at h'; cases h'
      · rw [hrec] at h'
        simp only [Option.map_some'] at h'
        cases h'
        rcases List.mem_cons.mp hr with rfl | hmem
        · exact List.mem_cons_self _ _
        · exact List.mem_cons_of_mem x (ih xs' hrec r hmem)

theorem removeFromPiles_subset (h : Heap) (cid : String) :
    ∀ (ps ps' : List (List Ref)), removeFromPiles h cid ps = some ps' →
      ∀ r ∈ ps'.flatten, r ∈ ps.flatten := by
  intro ps
  induction ps with
  | nil => intro ps' h'; cases h'
  | cons p ps ih =>
    intro ps' h' r hr
    rw [removeFromPiles] at h'
    rcases hrem : removeFirstById h cid p with _ | p'
    · rw [hrem] at h'
      rcases hrec : removeFromPiles h cid ps with _ | ps''
      · rw [hrec] at h'; cases h'
      · rw [hrec] at h'
        simp only [Option.map_some'] at h'
        cases h'
        rw [List.flatten_cons] at hr ⊢
        rcases List.mem_append.mp hr with hr1 | hr2
        · exact List.mem_append_left _ hr1
        · exact List.mem_append_right _ (ih ps'' hrec r hr2)
    · rw [hrem] at h'
      cases h'
      rw [List.flatten_cons] at hr ⊢
      rcases List.mem_append.mp hr with hr1 | hr2
      · exact List.mem_append_left _ (removeFirstById_subset h cid p p' hrem r hr1)
      · exact List.mem_append_right _ hr2

/-- `removeCardFromSource` only removes references. -/
theorem removeCardFromSource_refs_subset (s : Engine) (c : Card) :
    ∀ r ∈ boardRefs (removeCardFromSource s c), r ∈ boardRefs s := by
  intro r hr
  unfold removeCardFromSource at hr
  rcases h1 : removeFirstById s.heap c.id s.stock with _ | st <;> simp only [h1] at hr
  case some =>
    rw [mem_boardRefs_iff] at hr ⊢
    rcases hr with h | h | h | h
    · exact Or.inl (removeFirstById_subset _ _ _ _ h1 r h)
    · exact Or.inr (Or.inl h)
    · exact Or.inr (Or.inr (Or.inl h))
    · exact Or.inr (Or.inr (Or.inr h))
  case none =>
  rcases h2 : removeFirstById s.heap c.id s.waste with _ | w <;> simp only [h2] at hr
  case some =>
    rw [mem_boardRefs_iff] at hr ⊢
    rcases hr with h | h | h | h
    · exact Or.inl h
    · exact Or.inr (Or.inl (removeFirstById_subset _ _ _ _ h2 r h))
    · exact Or.inr (Or.inr (Or.inl h))
    · exact Or.inr (Or.inr (Or.inr h))
  case none =>
  rcases h3 : removeFromPiles s.heap c.id s.tableau with _ | tab <;> simp only [h3] at hr
  case some =>
    rw [mem_boardRefs_iff] at hr ⊢
    rcases hr with h | h | ⟨p, hp, hrp⟩ | h
    · exact Or.inl h
    · exact Or.inr (Or.inl h)
    · rcases List.mem_flatten.mp
        (removeFromPiles_subset _ _ _ _ h3 r (List.mem_flatten.mpr ⟨p, hp, hrp⟩)) with
        ⟨q, hq, hrq⟩
      exact Or.inr (Or.inr (Or.inl ⟨q, hq, hrq⟩))
    · exact Or.inr (Or.inr (Or.inr h))
  case none =>
  rcases h4 : removeFirstById s.heap c.id s.foundations.spades with _ | l <;>
    simp only [h4] at hr
  case some =>
    rw [mem_boardRefs_iff] at hr ⊢
    rcases hr with h | h | h | ⟨su, hsu⟩
    · exact Or.inl h
    · exact Or.inr (Or.inl h)
    · exact Or.inr (Or.inr (Or.inl h))
    · refine Or.inr (Or.inr (Or.inr ?_))
      cases su <;> simp only [Foundations.get] at hsu
      · exact ⟨.spades, removeFirstById_subset _ _ _ _ h4 r hsu⟩
      · exact ⟨.hearts, hsu⟩
      · exact ⟨.diamonds, hsu⟩
      · exact ⟨.clubs, hsu⟩
  case none =>
  rcases h5 : removeFirstById s.heap c.id s.foundations.hearts with _ | l <;>
    simp only [h5] at hr
  case some =>
    rw [mem_boardRefs_iff] at hr ⊢
    rcases hr with h | h | h | ⟨su, hsu⟩
    · exact Or.inl h
    · exact Or.inr (Or.inl h)
    · exact Or.inr (Or.inr (Or.inl h))
    · refine Or.inr (Or.inr (Or.inr ?_))
      cases su <;> simp only [Foundations.get] at hsu
      · exact ⟨.spades, hsu⟩
      · exact ⟨.hearts, removeFirstById_subset _ _ _ _ h5 r hsu⟩
      · exact ⟨.diamonds, hsu⟩
      · exact ⟨.clubs, hsu⟩
  case none =>
  rcases h6 : removeFirstById s.heap c.id s.foundations.diamonds with _ | l <;>
    simp only [h6] at hr
  case some =>
    rw [mem_boardRefs_iff] at hr ⊢
    rcases hr with h | h | h | ⟨su, hsu⟩
    · exact Or.inl h
    · exact Or.inr (Or.inl h)
    · exact Or.inr (Or.inr (Or.inl h))
    · refine Or.inr (Or.inr (Or.inr ?_))
      cases su <;> simp only [Foundations.get] at hsu
      · exact ⟨.spades, hsu⟩
      · exact ⟨.hearts, hsu⟩
      · exact ⟨.diamonds, removeFirstById_subset _ _ _ _ h6 r hsu⟩
      · exact ⟨.clubs, hsu⟩
  case none =>
  rcases h7 : removeFirstById s.heap c.id s.foundations.clubs with _ | l <;>
    simp only [h7] at hr
  case some =>
    rw [mem_boardRefs_iff] at hr ⊢
    rcases hr with h | h | h | ⟨su, hsu⟩
    · exact Or.inl h
    · exact Or.inr (Or.inl h)
    · exact Or.inr (Or.inr (Or.inl h))
    · refine Or.inr (Or.inr (Or.inr ?_))
      cases su <;> simp only [Foundations.get] at hsu
      · exact ⟨.spades, hsu⟩
      · exact ⟨.hearts, hsu⟩
      · exact ⟨.diamonds, hsu⟩
      · exact ⟨.clubs, removeFirstById_subset _ _ _ _ h7 r hsu⟩
  case none =>
    exact hr

theorem removeAll_refs_subset :
    ∀ (l : List Ref) (s : Engine), ∀ r ∈ boardRefs (removeAll l s), r ∈ boardRefs s := by
  intro l
  induction l with
  | nil => intro s r hr; exact hr
  | cons c cs ih =>
    intro s r hr
    rw [removeAll, List.foldl_cons] at hr
    exact removeCardFromSource_refs_subset s _ r (ih _ r hr)

theorem findCard_mem (s : Engine) (cid : String) (r : Ref)
    (h : findCard s cid = some r) : r ∈ boardRefs s :=
  List.mem_of_find?_eq_some h

theorem dropUntilId_subset (h : Heap) (cid : String) :
    ∀ (l l' : List Ref), dropUntilId h cid l = some l' → ∀ r ∈ l', r ∈ l := by
  intro l
  induction l with
  | nil => intro l' h'; cases h'
  | cons x xs ih =>
    intro l' h' r hr
    rw [dropUntilId] at h'
    split_ifs at h' with hid
    · cases h'
      exact hr
    · exact List.mem_cons_of_mem x (ih l' h' r hr)

theorem sliceFromPiles_subset (h : Heap) (cid : String) :
    ∀ (ps : List (List Ref)) (l' : List Ref), sliceFromPiles h cid ps = some l' →
      ∀ r ∈ l', r ∈ ps.flatten := by
  intro ps
  induction ps with
  | nil => intro l' h'; cases h'
  | cons p ps ih =>
    intro l' h' r hr
    rw [sliceFromPiles] at h'
    rcases hdrop : dropUntilId h cid p with _ | q
    · rw [hdrop] at h'
      rw [List.flatten_cons]
      exact List.mem_append_right _ (ih l' h' r hr)
    · rw [hdrop] at h'
      obtain rfl := Option.some.inj h'
      rw [List.flatten_cons]
      exact List.mem_append_left _ (dropUntilId_subset h cid p q hdrop r hr)

theorem getCardsToMove_subset (s : Engine) (r0 : Ref) (hr0 : r0 ∈ boardRefs s) :
    ∀ r ∈ getCardsToMove s r0, r ∈ boardRefs s := by
  intro r hr
  unfold getCardsToMove at hr
  rcases hsl : sliceFromPiles s.heap (hGet s.heap r0).id s.tableau with _ | l
  · rw [hsl] at hr
    rcases List.mem_singleton.mp hr with rfl
    exact hr0
  · rw [hsl] at hr
    rcases List.mem_flatten.mp (sliceFromPiles_subset _ _ _ _ hsl r hr) with ⟨q, hq, hrq⟩
    exact mem_boardRefs_of_tableau s q r hq hrq

/-- Reading a pile by index stays within the tableau. -/
theorem mem_getD_tableau (tab : List (List Ref)) (ti : Nat) (r : Ref)
    (hr : r ∈ tab.getD ti []) : ∃ p ∈ tab, r ∈ p := by
  by_cases hti : ti < tab.length
  · rw [List.getD_eq_getElem _ _ hti] at hr
    exact ⟨tab[ti], List.getElem_mem hti, hr⟩
  · rw [List.getD_eq_default _ _ (by omega)] at hr
    cases hr

@[simp] theorem boardRefs_reveal (s : Engine) :
    boardRefs (revealHiddenCards s) = boardRefs s := rfl

theorem moveToFoundation_refs_subset (s : Engine) (m : Move) :
    ∀ r ∈ boardRefs (moveToFoundation s m).newState, r ∈ boardRefs s := by
  intro r hr
  unfold moveToFoundation at hr
  rcases hfc : findCard s m.cardId with _ | r0 <;> simp only [hfc] at hr
  · exact hr
  · split_ifs at hr with h1 h2
    · exact hr
    · exact hr
    · rw [boardRefs_reveal, mem_boardRefs_iff] at hr
      rcases hr with h | h | ⟨p, hp, hrp⟩ | ⟨su, hsu⟩
      · exact removeCardFromSource_refs_subset s (hGet s.heap r0) r
          (by rw [mem_boardRefs_iff]; exact Or.inl h)
      · exact removeCardFromSource_refs_subset s (hGet s.heap r0) r
          (by rw [mem_boardRefs_iff]; exact Or.inr (Or.inl h))
      · exact removeCardFromSource_refs_subset s (hGet s.heap r0) r
          (by rw [mem_boardRefs_iff]; exact Or.inr (Or.inr (Or.inl ⟨p, hp, hrp⟩)))
      · rw [Foundations.get_setPile] at hsu
        split_ifs at hsu with hg
        · rcases List.mem_append.mp hsu with h | h
          · exact removeCardFromSource_refs_subset s (hGet s.heap r0) r
              (by rw [mem_boardRefs_iff]; exact Or.inr (Or.inr (Or.inr ⟨_, h⟩)))
          · rcases List.mem_singleton.mp h with rfl
            exact findCard_mem s m.cardId r hfc
        · exact removeCardFromSource_refs_subset s (hGet s.heap r0) r
            (by rw [mem_boardRefs_iff]; exact Or.inr (Or.inr (Or.inr ⟨su, hsu⟩)))

theorem moveToTableau_refs_subset (s : Engine) (m : Move) :
    ∀ r ∈ boardRefs (moveToTableau s m).newState, r ∈ boardRefs s := by
  intro r hr
  unfold moveToTableau at hr
  rcases hfc : findCard s m.cardId with _ | r0 <;> rcases hti : m.targetIndex with _ | ti <;>
    simp only [hfc, hti] at hr
  · exact hr
  · exact hr
  · exact hr
  · split_ifs at hr with hcan
    · rw [boardRefs_reveal, mem_boardRefs_iff] at hr
      have hsub := removeAll_refs_subset (getCardsToMove s r0) s
      rcases hr with h | h | ⟨p, hp, hrp⟩ | ⟨su, hsu⟩
      · exact hsub r (by rw [mem_boardRefs_iff]; exact Or.inl h)
      · exact hsub r (by rw [mem_boardRefs_iff]; exact Or.inr (Or.inl h))
      · rcases List.mem_or_eq_of_mem_set hp with hp' | rfl
        · exact hsub r (by rw [mem_boardRefs_iff]; exact Or.inr (Or.inr (Or.inl ⟨p, hp', hrp⟩)))
        · rcases List.mem_append.mp hrp with h | h
          · rcases mem_getD_tableau _ ti r h with ⟨q, hq, hrq⟩
            exact hsub r (by rw [mem_boardRefs_iff]; exact Or.inr (Or.inr (Or.inl ⟨q, hq, hrq⟩)))
          · exact getCardsToMove_subset s r0 (findCard_mem s m.cardId r0 hfc) r h
      · exact hsub r (by rw [mem_boardRefs_iff]; exact Or.inr (Or.inr (Or.inr ⟨su, hsu⟩)))
    · exact hr

theorem moveWasteToTableau_refs_subset (s : Engine) (m : Move) :
    ∀ r ∈ boardRefs (moveWasteToTableau s m).newState, r ∈ boardRefs s := by
  intro r hr
  unfold moveWasteToTableau at hr
  rcases hw : s.waste.getLast? with _ | r0 <;> rcases hti : m.targetIndex with _ | ti <;>
    simp only [hw, hti] at hr
  · exact hr
  · exact hr
  · exact hr
  · split_ifs at hr with hcan
    · rw [mem_boardRefs_iff] at hr ⊢
      rcases hr with h | h | ⟨p, hp, hrp⟩ | h
      · exact Or.inl h
      · exact Or.inr (Or.inl ((List.dropLast_sublist _).subset h))
      · rcases List.mem_or_eq_of_mem_set hp with hp' | rfl
        · exact Or.inr (Or.inr (Or.inl ⟨p, hp', hrp⟩))
        · rcases List.mem_append.mp hrp with h | h
          · rcases mem_getD_tableau s.tableau ti r h with ⟨q, hq, hrq⟩
            exact Or.inr (Or.inr (Or.inl ⟨q, hq, hrq⟩))
          · rcases List.mem_singleton.mp h with rfl
            exact Or.inr (Or.inl (List.mem_of_getLast?_eq_some hw))
      · exact Or.inr (Or.inr (Or.inr h))
    · exact hr

/-- Successful or not, the executors only rearrange existing references. -/
theorem executeMove_refs_subset (s : Engine) (m : Move) :
    ∀ r ∈ boardRefs (executeMove s m).newState, r ∈ boardRefs s := by
  intro r hr
  unfold executeMove at hr
  rcases hm : m.type <;> simp only [hm] at hr
  · exact hr
  · exact hr
  · exact moveToFoundation_refs_subset s m r hr
  · exact moveToTableau_refs_subset s m r hr
  · exact moveWasteToTableau_refs_subset s m r hr

/-- Removing a card from a board with an empty waste leaves the waste
empty. -/
theorem removeCardFromSource_waste_empty (s : Engine) (c : Card)
    (hw : s.waste = []) : (removeCardFromSource s c).waste = [] := by
  unfold removeCardFromSource
  repeat' split
  all_goals simp_all [removeFirstById]

theorem removeAll_waste_empty :
    ∀ (l : List Ref) (s : Engine), s.waste = [] → (removeAll l s).waste = [] := by
  intro l
  induction l with
  | nil => intro s hw; exact hw
  | cons c cs ih =>
    intro s hw
    rw [removeAll, List.foldl_cons]
    exact ih _ (removeCardFromSource_waste_empty s _ hw)

/-- A successful foundation move is a reveal pass over a state with the same
heap, an unchanged history and (if it was empty) an empty waste. -/
theorem moveToFoundation_success_shape (s : Engine) (m : Move)
    (h : (moveToFoundation s m).success = true) :
    ∃ s2 : Engine, (moveToFoundation s m).newState = revealHiddenCards s2 ∧
      s2.heap = s.heap ∧ (s.waste = [] → s2.waste = []) ∧
      s2.gameHistory = s.gameHistory := by
  unfold moveToFoundation at h ⊢
  rcases hfc : findCard s m.cardId with _ | r0 <;> simp only [hfc] at h ⊢
  · exact Bool.noConfusion h
  · split_ifs at h ⊢ with h1 h2
    refine ⟨_, rfl, by simp, fun hw => ?_, by simp⟩
    exact removeCardFromSource_waste_empty s _ hw

/-- A successful tableau move is a reveal pass over a state with the same
heap, an unchanged history and (if it was empty) an empty waste. -/
theorem moveToTableau_success_shape (s : Engine) (m : Move)
    (h : (moveToTableau s m).success = true) :
    ∃ s2 : Engine, (moveToTableau s m).newState = revealHiddenCards s2 ∧
      s2.heap = s.heap ∧ (s.waste = [] → s2.waste = []) ∧
      s2.gameHistory = s.gameHistory := by
  unfold moveToTableau at h ⊢
  rcases hfc : findCard s m.cardId with _ | r0 <;> rcases hti : m.targetIndex with _ | ti <;>
    simp only [hfc, hti] at h ⊢
  · exact Bool.noConfusion h
  · exact Bool.noConfusion h
  · exact Bool.noConfusion h
  · split_ifs at h ⊢ with hcan
    refine ⟨_, rfl, by simp, fun hw => ?_, by simp⟩
    exact removeAll_waste_empty _ s hw

/-- A waste→tableau move can never succeed when the waste is empty (which it
always is in reachable states, since stock draws are unimplemented). -/
theorem moveWasteToTableau_no_success_of_empty (s : Engine) (m : Move)
    (hw : s.waste = []) : (moveWasteToTableau s m).success = false := by
  unfold moveWasteToTableau
  rw [hw]
  rfl

/-- All card references a snapshot holds. -/
def snapRefs (snap : Snapshot) : List Ref :=
  snap.stock ++ snap.waste ++ snap.tableau.flatten ++ snap.foundations.values.flatten

/-- Every non-empty pile has a face-up top card (read through the heap `h`). -/
def TopsUp (h : Heap) (tab : List (List Ref)) : Prop :=
  ∀ p ∈ tab, ∀ r, p.getLast? = some r → (hGet h r).faceUp = true

/-- Well-formedness of the history snapshots relative to a heap. -/
def HistOk (h : Heap) (hist : List Snapshot) (n : Nat) : Prop :=
  ∀ snap ∈ hist, snap.waste = [] ∧ (∀ r ∈ snapRefs snap, r < n) ∧ TopsUp h snap.tableau

/-- The inductive invariant of reachable boards: the waste is empty (no code
path ever fills it), every reference is a live card object, every non-empty
tableau pile has a face-up top card, and all history snapshots satisfy the
same conditions. -/
def Inv (s : Engine) : Prop :=
  s.waste = [] ∧ (∀ r ∈ boardRefs s, r < s.heap.length) ∧
    TopsUp s.heap s.tableau ∧ HistOk s.heap s.gameHistory s.heap.length

/-- A reveal pass over a state reachable by pile surgery from an invariant
state re-establishes the invariant. -/
theorem reveal_shape_inv (s s2 : Engine)
    (hheap : s2.heap = s.heap) (hw2 : s2.waste = [])
    (hhist2 : s2.gameHistory = s.gameHistory)
    (hsub : ∀ r ∈ boardRefs s2, r ∈ boardRefs s)
    (hrefs : ∀ r ∈ boardRefs s, r < s.heap.length)
    (hhist : HistOk s.heap s.gameHistory s.heap.length) :
    Inv (revealHiddenCards s2) := by
  refine ⟨by simpa using hw2, ?_, ?_, ?_⟩
  · intro r hr
    rw [boardRefs_reveal] at hr
    rw [revealHiddenCards_heap_length, hheap]
    exact hrefs r (hsub r hr)
  · intro p hp r hl
    refine revealHiddenCards_topsUp s2 (fun p' hp' r' hl' => ?_) p hp r hl
    rw [hheap]
    refine hrefs r' (hsub r' ?_)
    rw [mem_boardRefs_iff]
    exact Or.inr (Or.inr (Or.inl ⟨p', hp', List.mem_of_getLast?_eq_some hl'⟩))
  · intro snap hsnap
    rw [revealHiddenCards_gameHistory, hhist2] at hsnap
    obtain ⟨h1, h2, h3⟩ := hhist snap hsnap
    refine ⟨h1, ?_, ?_⟩
    · intro r hr
      rw [revealHiddenCards_heap_length, hheap]
      exact h2 r hr
    · intro p hp r hl
      apply revealHiddenCards_faceUp_mono
      rw [hheap]
      exact h3 p hp r hl

/-- `executeMove` preserves the invariant on success. -/
theorem executeMove_inv (s : Engine) (m : Move)
    (hw : s.waste = []) (hrefs : ∀ r ∈ boardRefs s, r < s.heap.length)
    (hhist : HistOk s.heap s.gameHistory s.heap.length)
    (h : (executeMove s m).success = true) :
    Inv (executeMove s m).newState := by
  unfold executeMove at h ⊢
  rcases hm : m.type <;> simp only [hm] at h ⊢
  · exact Bool.noConfusion h
  · exact Bool.noConfusion h
  · obtain ⟨s2, hEq, hheap, hwimp, hhist2⟩ := moveToFoundation_success_shape s m h
    rw [hEq]
    refine reveal_shape_inv s s2 hheap (hwimp hw) hhist2 (fun r hr => ?_) hrefs hhist
    exact moveToFoundation_refs_subset s m r (by rw [hEq, boardRefs_reveal]; exact hr)
  · obtain ⟨s2, hEq, hheap, hwimp, hhist2⟩ := moveToTableau_success_shape s m h
    rw [hEq]
    refine reveal_shape_inv s s2 hheap (hwimp hw) hhist2 (fun r hr => ?_) hrefs hhist
    exact moveToTableau_refs_subset s m r (by rw [hEq, boardRefs_reveal]; exact hr)
  · rw [moveWasteToTableau_no_success_of_empty s m hw] at h
    exact Bool.noConfusion h

/-- `makeMove` preserves the invariant on success. -/
theorem makeMove_inv (s : Engine) (m : Move) (hInv : Inv s)
    (h : (makeMove s m).success = true) : Inv (makeMove s m).newState := by
  obtain ⟨hw, hrefs, htops, hhist⟩ := hInv
  have hexec : (executeMove { s with gameHistory := s.gameHistory ++ [mkSnapshot s] } m).success
      = true := by
    by_contra hfalse
    rw [Bool.not_eq_true] at hfalse
    unfold makeMove at h
    simp [hfalse] at h
  have hms : makeMove s m =
      { executeMove { s with gameHistory := s.gameHistory ++ [mkSnapshot s] } m with
        newState :=
          { (executeMove { s with gameHistory := s.gameHistory ++ [mkSnapshot s] } m).newState
            with canUndo := true } } := by
    unfold makeMove
    simp [hexec]
  rw [hms]
  have hInv1 : Inv (executeMove { s with gameHistory := s.gameHistory ++ [mkSnapshot s] } m).newState := by
    refine executeMove_inv _ m hw (fun r hr => hrefs r hr) ?_ hexec
    intro snap hsnap
    simp only [List.mem_append, List.mem_singleton] at hsnap
    rcases hsnap with hsnap | rfl
    · exact hhist snap hsnap
    · exact ⟨hw, fun r hr => hrefs r hr, htops⟩
  obtain ⟨i1, i2, i3, i4⟩ := hInv1
  exact ⟨i1, i2, i3, i4⟩

/-- `undo` preserves the invariant on success. -/
theorem undo_inv (s : Engine) (hInv : Inv s) (h : (undo s).success = true) :
    Inv (undo s).newState := by
  obtain ⟨hw, hrefs, htops, hhist⟩ := hInv
  unfold undo at h ⊢
  rcases hl : s.gameHistory.getLast? with _ | snap <;> simp only [hl] at h ⊢
  · exact Bool.noConfusion h
  · obtain ⟨h1, h2, h3⟩ := hhist snap (List.mem_of_getLast?_eq_some hl)
    refine ⟨h1, ?_, ?_, ?_⟩
    · intro r hr
      exact h2 r hr
    · intro p hp r hl'
      exact h3 p hp r hl'
    · intro snap' hsnap'
      have : snap' ∈ s.gameHistory := (List.dropLast_sublist _).subset hsnap'
      obtain ⟨g1, g2, g3⟩ := hhist snap' this
      exact ⟨g1, g2, g3⟩

/-- Boards reachable from a fresh `createInitialGameState` deal by successful
`makeMove` and `undo` calls. -/
inductive Reachable : Engine → Prop
  | init (deck : List Card) : Reachable (createInitialGameState deck)
  | move (s : Engine) (m : Move) (hs : Reachable s)
      (h : (makeMove s m).success = true) : Reachable (makeMove s m).newState
  | undoStep (s : Engine) (hs : Reachable s)
      (h : (undo s).success = true) : Reachable (undo s).newState

/-- The invariant holds at a fresh deal, whatever the (shuffled) deck. -/
theorem init_inv (deck : List Card) : Inv (createInitialGameState deck) := by
  have htab : (createInitialGameState deck).tableau =
      [[0], [1, 7], [2, 8, 13], [3, 9, 14, 18], [4, 10, 15, 19, 22],
       [5, 11, 16, 20, 23, 25], [6, 12, 17, 21, 24, 26, 27]] := by
    show dealTabRefs = _
    decide
  have h1 : (dealTabCards deck).length = 28 := by
    rw [dealTabCards, List.length_map, List.enum_length]
    decide
  have h2 : (dealStockCards deck).length = deck.length - 28 := by
    rw [dealStockCards, List.length_map, List.length_drop]
  have hlen : (createInitialGameState deck).heap.length = 28 + (deck.length - 28) := by
    show (dealTabCards deck ++ dealStockCards deck).length = _
    rw [List.length_append, h1, h2]
  refine ⟨rfl, ?_, ?_, ?_⟩
  · intro r hr
    rw [mem_boardRefs_iff] at hr
    rw [hlen]
    rcases hr with h | h | ⟨p, hp, hrp⟩ | ⟨su, hsu⟩
    · rcases List.mem_range'.mp h with ⟨i, hi, rfl⟩
      have hi' : i < deck.length - 28 := hi
      simpa using hi'
    · cases h
    · rw [htab] at hp
      have hr28 : r < 28 := by
        fin_cases hp <;> fin_cases hrp <;> decide
      exact Nat.lt_of_lt_of_le hr28 (Nat.le_add_right 28 _)
    · cases su <;> cases hsu
  · intro p hp r hl
    rw [htab] at hp
    fin_cases hp <;> (obtain rfl := Option.some.inj hl; rfl)
  · intro snap hsnap
    cases hsnap

/-- Every reachable board satisfies the invariant. -/
theorem reachable_inv : ∀ s, Reachable s → Inv s := by
  intro s hs
  induction hs with
  | init deck => exact init_inv deck
  | move s m hs h ih => exact makeMove_inv s m ih h
  | undoStep s hs h ih => exact undo_inv s ih h

/-- C10 (confirmed): (1) in every board reachable from a fresh
`createInitialGameState` deal by successful `makeMove` and `undo` calls, the
top card of every non-empty tableau column is face-up; (2) `revealHiddenCards`
— which both the foundation and the tableau executor run after their pile
surgery — keeps the tableau unchanged and leaves *every* column (not only the
move's source) with a face-up top card; (3) it credits the +5 reveal bonus
once per flipped column top.  (`moveWasteToTableau` performs no reveal, but
the waste is empty in every reachable state — stock draws are unimplemented —
so it never succeeds and every top stays face-up.) -/
theorem tableau_tops_faceUp_invariant :
    (∀ s, Reachable s → ∀ p ∈ s.tableau, ∀ r, p.getLast? = some r →
        (hGet s.heap r).faceUp = true) ∧
    (∀ s : Engine, (∀ p ∈ s.tableau, ∀ r, p.getLast? = some r → r < s.heap.length) →
        (revealHiddenCards s).tableau = s.tableau ∧
        ∀ p ∈ s.tableau, ∀ r, p.getLast? = some r →
          (hGet (revealHiddenCards s).heap r).faceUp = true) ∧
    (∀ s : Engine, (s.tableau.filterMap List.getLast?).Nodup →
        (revealHiddenCards s).score = s.score +
          5 * ((s.tableau.filter fun p =>
              match p.getLast? with
              | some r => !(hGet s.heap r).faceUp
              | none => false).length : Int)) := by
  refine ⟨?_, ?_, ?_⟩
  · intro s hs p hp r hl
    exact (reachable_inv s hs).2.2.1 p hp r hl
  · intro s hok
    exact ⟨rfl, revealHiddenCards_topsUp s hok⟩
  · intro s hnd
    exact reveal_fold_score s.tableau s.heap s.score hnd

/-- Witness for `tableau_tops_faceUp_invariant` at the fresh identity deal
(whose tableau tops are references 0, 7, 13, 18, 22, 25, 27). -/
theorem tableau_tops_faceUp_invariant_witness :
    (hGet demoBoard.heap 0).faceUp = true ∧
    (hGet (revealHiddenCards demoBoard).heap 27).faceUp = true ∧
    (revealHiddenCards demoBoard).score = demoBoard.score +
      5 * ((demoBoard.tableau.filter fun p =>
          match p.getLast? with
          | some r => !(hGet demoBoard.heap r).faceUp
          | none => false).length : Int) := by
  refine ⟨?_, ?_, ?_⟩
  · exact tableau_tops_faceUp_invariant.1 demoBoard (Reachable.init createDeck)
      [0] (by decide) 0 rfl
  · refine (tableau_tops_faceUp_invariant.2.1 demoBoard (fun p hp r hl => ?_)).2
      [6, 12, 17, 21, 24, 26, 27] (by decide) 27 rfl
    exact (init_inv createDeck).2.1 r
      (mem_boardRefs_of_tableau _ p r hp (List.mem_of_getLast?_eq_some hl))
  · exact tableau_tops_faceUp_invariant.2.2 demoBoard (by decide)

end Klondike
